import Mathlib

/-!
Verification development for the election-data flattening pipeline in
`src/process.py`.

The Python module is a pure batch transform over JSON-like values.  We embed
Python values as the inductive type `Val`, Python dictionaries as ordered
association lists with Python's insertion/update semantics (`dinsert`), and
each fallible subscript access (`d[k]`, which raises `KeyError` on a missing
key and `TypeError` on a non-mapping) as a computation in `Except String`.

The pandas constructions the module uses are modelled at the level of their
observable table content:

* `pd.Series(records, name=c)` / `pd.DataFrame.from_dict(records,
  orient="index")` keep the dict entries in insertion order, one row per key;
* `pd.DataFrame.from_records(results, index="election_id", exclude=...)`
  keeps one row per record, in record order, with the index column removed
  and excluded columns dropped (duplicated index labels are preserved);
* `pd.concat(tables, axis=1)` aligns rows on the shared index: identical
  index lists are joined positionally, otherwise an outer alignment on the
  union of the (then necessarily unique) index labels is performed, and a
  duplicated label on a table that must be realigned is an error.

A table is a list of `(index label, row)` pairs where a row is an ordered
list of `(column, value)` cells; an aligned (combined) row stores
`Option Val` cells, with `none` standing for a missing value (pandas `NaN`).
-/

/-- Embedded Python/JSON values.  `vnan` stands for pandas' missing-value
marker `NaN`, which is distinct from Python's `None` (`vnone`). -/
inductive Val where
  | vnone : Val
  | vnan  : Val
  | vbool : Bool → Val
  | vint  : Int → Val
  | vstr  : String → Val
  | vlist : List Val → Val
  | vdict : List (String × Val) → Val
deriving Repr

mutual

/-- Structural (Python `==`-style) equality on embedded values. -/
def Val.beq : Val → Val → Bool
  | .vnone, .vnone => true
  | .vnan, .vnan => true
  | .vbool a, .vbool b => a == b
  | .vint a, .vint b => a == b
  | .vstr a, .vstr b => a == b
  | .vlist a, .vlist b => beqList a b
  | .vdict a, .vdict b => beqFields a b
  | _, _ => false

/-- Pointwise equality of value lists. -/
def beqList : List Val → List Val → Bool
  | [], [] => true
  | a :: as, b :: bs => Val.beq a b && beqList as bs
  | _, _ => false

/-- Pointwise equality of field lists. -/
def beqFields : List (String × Val) → List (String × Val) → Bool
  | [], [] => true
  | (k1, v1) :: as, (k2, v2) :: bs => k1 == k2 && Val.beq v1 v2 && beqFields as bs
  | _, _ => false

end

instance : BEq Val := ⟨Val.beq⟩

mutual

theorem Val.beq_refl : ∀ a : Val, Val.beq a a = true
  | .vnone => rfl
  | .vnan => rfl
  | .vbool a => by simp [Val.beq]
  | .vint a => by simp [Val.beq]
  | .vstr a => by simp [Val.beq]
  | .vlist a => by simp [Val.beq, beqList_refl a]
  | .vdict a => by simp [Val.beq, beqFields_refl a]

theorem beqList_refl : ∀ l : List Val, beqList l l = true
  | [] => rfl
  | a :: as => by simp [beqList, Val.beq_refl a, beqList_refl as]

theorem beqFields_refl : ∀ l : List (String × Val), beqFields l l = true
  | [] => rfl
  | (k, v) :: as => by simp [beqFields, Val.beq_refl v, beqFields_refl as]

end

mutual

theorem Val.eq_of_beq : ∀ {a b : Val}, Val.beq a b = true → a = b
  | .vnone, .vnone, _ => rfl
  | .vnan, .vnan, _ => rfl
  | .vbool a, .vbool b, h => by simp [Val.beq] at h; simp [h]
  | .vint a, .vint b, h => by simp [Val.beq] at h; simp [h]
  | .vstr a, .vstr b, h => by simp [Val.beq] at h; simp [h]
  | .vlist a, .vlist b, h => by
      simp only [Val.beq] at h
      exact congrArg Val.vlist (eqList_of_beq h)
  | .vdict a, .vdict b, h => by
      simp only [Val.beq] at h
      exact congrArg Val.vdict (eqFields_of_beq h)

theorem eqList_of_beq : ∀ {a b : List Val}, beqList a b = true → a = b
  | [], [], _ => rfl
  | x :: xs, y :: ys, h => by
      simp only [beqList, Bool.and_eq_true] at h
      rw [Val.eq_of_beq h.1, eqList_of_beq h.2]

theorem eqFields_of_beq : ∀ {a b : List (String × Val)}, beqFields a b = true → a = b
  | [], [], _ => rfl
  | (k1, v1) :: xs, (k2, v2) :: ys, h => by
      simp only [beqFields, Bool.and_eq_true, beq_iff_eq] at h
      rw [h.1.1, Val.eq_of_beq h.1.2, eqFields_of_beq h.2]

end

instance : LawfulBEq Val where
  eq_of_beq := Val.eq_of_beq
  rfl := Val.beq_refl _

instance : DecidableEq Val := fun a b =>
  decidable_of_iff ((a == b) = true) beq_iff_eq

/-- Python subscript access `v[k]`: looks the key up in a mapping, raising
`KeyError` when the key is absent and `TypeError` when `v` is not a mapping. -/
def getItem (v : Val) (k : String) : Except String Val :=
  match v with
  | .vdict d =>
    match d.find? (fun p => p.1 == k) with
    | some p => Except.ok p.2
    | none => Except.error ("KeyError: " ++ k)
  | _ => Except.error ("TypeError: value is not a mapping, key " ++ k)

/-- Python truthiness of a value (`if v:`). -/
def Val.truthy : Val → Bool
  | .vnone => false
  | .vnan => true
  | .vbool b => b
  | .vint n => n != 0
  | .vstr s => !s.isEmpty
  | .vlist l => !l.isEmpty
  | .vdict d => !d.isEmpty

/-- Python iteration over a value (`for x in v`): lists yield their elements,
strings their characters, mappings their keys; other values raise
`TypeError`. -/
def Val.iterate : Val → Except String (List Val)
  | .vlist l => Except.ok l
  | .vstr s => Except.ok (s.data.map (fun c => Val.vstr (String.mk [c])))
  | .vdict d => Except.ok (d.map (fun p => Val.vstr p.1))
  | _ => Except.error "TypeError: value is not iterable"

/-- Python dictionary update `d[k] = v`: if an entry with an equal key exists
its value is replaced in place (the entry keeps its position), otherwise the
new entry is appended, preserving insertion order. -/
def dinsert {κ α : Type} [BEq κ] (d : List (κ × α)) (k : κ) (v : α) : List (κ × α) :=
  if d.any (fun p => p.1 == k) then
    d.map (fun p => if p.1 == k then (p.1, v) else p)
  else
    d ++ [(k, v)]

/-- Key lookup in an ordered association list (first matching entry). -/
def lookupD {κ α : Type} [BEq κ] (d : List (κ × α)) (k : κ) : Option α :=
  (d.find? (fun p => p.1 == k)).map (fun p => p.2)

/-- A pandas table: index labels paired with rows of named cells. -/
abbrev Table := List (Val × List (String × Val))

/-- A table produced by `pd.concat(..., axis=1)`: cells are optional, `none`
standing for a missing value (`NaN`). -/
abbrev CombinedTable := List (Val × List (String × Option Val))

/-- The voting-methods table, indexed by `(election_id, method position)`. -/
abbrev VTable := List ((Val × Nat) × List (String × Val))

/-- `extract_results(raw)`: concatenate `page["results"]` over all pages. -/
def extract_results (raw : Val) : Except String (List Val) := do
  let pages ← raw.iterate
  pages.foldlM (fun results page => do
    let r ← getItem page "results"
    let items ← r.iterate
    pure (results ++ items)) []

/-- The shared loop shape of `tidy_names`, `tidy_districts` and
`tidy_verified`: one record per result, `records[result["election_id"]] =
value(result)`, with the value expression evaluated before the key (Python
evaluates the right-hand side of an assignment first). -/
def recordEntry (value : Val → Except String Val) (result : Val) :
    Except String (Val × Val) := do
  let v ← value result
  let k ← getItem result "election_id"
  pure (k, v)

/-- Accumulation of `recordEntry` values into a dict keyed by election id. -/
def recordLoop (value : Val → Except String Val) (results : List Val) :
    Except String (List (Val × Val)) :=
  results.foldlM (fun records result => do
    let e ← recordEntry value result
    pure (dinsert records e.1 e.2)) []

/-- The value extracted per result by `tidy_names`:
`result["election_name"]["en_US"]`. -/
def nameValue (result : Val) : Except String Val := do
  let nm ← getItem result "election_name"
  getItem nm "en_US"

/-- `tidy_names(results)`: the election-name series, one row per distinct
election id, presented as a one-column table named `election_name`. -/
def tidy_names (results : List Val) : Except String Table :=
  (recordLoop nameValue results).map (fun records =>
    records.map (fun p => (p.1, [("election_name", p.2)])))

/-- The value extracted per result by `tidy_districts`: `result["district"]`. -/
def districtValue (result : Val) : Except String Val := getItem result "district"

/-- A dict value turned into a table row by `pd.DataFrame.from_dict(...,
orient="index")`; non-mapping rows are rejected by the constructor. -/
def rowOfVal : Val → Except String (List (String × Val))
  | .vdict d => Except.ok d
  | _ => Except.error "ValueError: DataFrame row is not a mapping"

/-- `pd.DataFrame.from_dict(records, orient="index")`: one row per dict
entry, in insertion order. -/
def frameFromDict (records : List (Val × Val)) : Except String Table :=
  records.mapM (fun p => (rowOfVal p.2).map (fun row => (p.1, row)))

/-- `tidy_districts(results)`: the district sub-mapping of each result as a
row, keyed by election id. -/
def tidy_districts (results : List Val) : Except String Table := do
  let records ← recordLoop districtValue results
  frameFromDict records

/-- The value extracted per result by `tidy_verified`:
`result["third_party_verified"]`. -/
def verifiedValue (result : Val) : Except String Val :=
  getItem result "third_party_verified"

/-- The column renaming applied by `tidy_verified`:
`{"is_verified": "verified", "date": "verified_date"}`. -/
def renameVerifiedColumn (c : String) : String :=
  if c == "is_verified" then "verified"
  else if c == "date" then "verified_date"
  else c

/-- `tidy_verified(results)`: the verification sub-mapping of each result as
a row keyed by election id, with columns renamed by `renameVerifiedColumn`. -/
def tidy_verified (results : List Val) : Except String Table := do
  let records ← recordLoop verifiedValue results
  let t ← frameFromDict records
  pure (t.map (fun p => (p.1, p.2.map (fun c => (renameVerifiedColumn c.1, c.2)))))

/-- The nested fields excluded by `tidy_elections`. -/
def electionsExclude : List String :=
  ["election_name", "district", "voting_methods", "third_party_verified"]

/-- Whether a value is a mapping containing the given key. -/
def Val.hasKey (v : Val) (k : String) : Bool :=
  match v with
  | .vdict d => d.any (fun p => p.1 == k)
  | _ => false

/-- The row `from_records` keeps for one result: all fields except the
excluded ones and the index column. -/
def electionsRow (d : List (String × Val)) : List (String × Val) :=
  d.filter (fun p => !(electionsExclude.contains p.1) && p.1 != "election_id")

/-- `tidy_elections(results)`: `pd.DataFrame.from_records(results,
index="election_id", exclude=...)`.  One row per result, in order, with
duplicated index labels preserved; a record without the index column gets a
missing (`NaN`) label; if no record carries the index column at all the
constructor raises `KeyError`. -/
def tidy_elections (results : List Val) : Except String Table := do
  let rows ← results.mapM (fun result =>
    match result with
    | .vdict d => Except.ok ((lookupD d "election_id").getD Val.vnan, electionsRow d)
    | _ => Except.error "TypeError: from_records expects mapping records")
  if results.any (fun r => r.hasKey "election_id") then
    pure rows
  else
    Except.error "KeyError: election_id"

/-- The index (row labels) of a table. -/
def tableIndex (t : Table) : List Val := t.map (fun p => p.1)

/-- Deduplication keeping the first occurrence of each element, in order:
the column/index union order used by pandas constructions. -/
def dedupFirst {α : Type} [BEq α] (l : List α) : List α :=
  l.foldl (fun acc a => if acc.any (fun b => b == a) then acc else acc ++ [a]) []

/-- The columns of a table: the union of its rows' cell names, in first-seen
order (a row lacking one of these columns holds a missing value there). -/
def tableCols (t : Table) : List String :=
  dedupFirst (t.flatMap (fun p => p.2.map (fun c => c.1)))

/-- The row of a table at a given index label, if any. -/
def tableRow (t : Table) (id : Val) : Option (List (String × Val)) :=
  (t.find? (fun p => p.1 == id)).map (fun p => p.2)

/-- The cell of a table at a given index label and column; `none` when the
label is absent from the table or the row lacks the column. -/
def tableCell (t : Table) (id : Val) (c : String) : Option Val :=
  (tableRow t id).bind (fun row => lookupD row c)

/-- One aligned output row of `pd.concat(tables, axis=1)`: each table
contributes all of its columns, in table order, with `none` for values the
table does not have at this index label. -/
def joinedRow (tables : List Table) (id : Val) : List (String × Option Val) :=
  tables.flatMap (fun t => (tableCols t).map (fun c => (c, tableCell t id c)))

/-- Outer alignment of tables on the union of their index labels, in
first-seen order: the aligned branch of `pd.concat(..., axis=1)`. -/
def outerAlign (tables : List Table) : CombinedTable :=
  (dedupFirst (tables.flatMap tableIndex)).map (fun id => (id, joinedRow tables id))

/-- A row padded out to a fixed column list, missing cells becoming `none`. -/
def alignRow (cols : List String) (row : List (String × Val)) :
    List (String × Option Val) :=
  cols.map (fun c => (c, lookupD row c))

/-- Positional (no-realignment) branch of `pd.concat(..., axis=1)`, taken
when every table carries the identical index list: the j-th rows are glued
together. -/
def positionalConcat (tables : List Table) : CombinedTable :=
  match tables with
  | [] => []
  | t0 :: _ =>
    (List.range t0.length).map (fun j =>
      ((t0.get? j).elim Val.vnan (fun p => p.1),
       tables.flatMap (fun t =>
         match t.get? j with
         | some p => alignRow (tableCols t) p.2
         | none => (tableCols t).map (fun c => (c, (none : Option Val))))))

/-- `pd.concat(tables, axis=1)`: tables whose index labels are all unique are
outer-aligned on the union of the labels; tables with identical (possibly
duplicated) index lists are glued positionally; otherwise realigning a
duplicated index raises `InvalidIndexError`. -/
def pdConcatCols (tables : List Table) : Except String CombinedTable :=
  if tables.all (fun t => decide (tableIndex t).Nodup) then
    Except.ok (outerAlign tables)
  else if tables.all (fun t => tableIndex t == tableIndex (tables.headD [])) then
    Except.ok (positionalConcat tables)
  else
    Except.error "InvalidIndexError: cannot reindex on an axis with duplicate labels"

/-- `process_elections(results)`: the four per-election tables combined by
`pd.concat(..., axis=1)` on the election-id index. -/
def process_elections (results : List Val) : Except String CombinedTable := do
  let e ← tidy_elections results
  let n ← tidy_names results
  let d ← tidy_districts results
  let v ← tidy_verified results
  pdConcatCols [e, n, d, v]

/-- `flatten_voting_method(method)`: copy every field except `instructions`,
then set `instructions` to `method["instructions"]["voting-id"]["en_US"]`. -/
def flatten_voting_method (method : Val) : Except String (List (String × Val)) :=
  match method with
  | .vdict items => do
    let flat := items.filter (fun p => p.1 != "instructions")
    let ins ← getItem method "instructions"
    let vid ← getItem ins "voting-id"
    let en ← getItem vid "en_US"
    pure (dinsert flat "instructions" en)
  | _ => Except.error "TypeError: method is not a mapping"

/-- Replacement of every hyphen by an underscore, the effect of Python's
`s.replace("-", "_")` (single-character pattern and replacement). -/
def hyphenToUnderscore (s : String) : String :=
  String.mk (s.data.map (fun c => if c == '-' then '_' else c))

/-- The column renaming applied by `tidy_voting_methods`:
`lambda x: f"method_{x}".replace("-", "_")`. -/
def methodColumn (c : String) : String :=
  hyphenToUnderscore ("method_" ++ c)

/-- One iteration of the inner loop of `tidy_voting_methods`:
`records[(result["election_id"], i)] = flatten_voting_method(method)`.  As
in the source, the flattened value is computed before the election id is
looked up. -/
def methodEntryStep (result : Val)
    (recs : List ((Val × Nat) × List (String × Val))) (im : Nat × Val) :
    Except String (List ((Val × Nat) × List (String × Val))) := do
  let flat ← flatten_voting_method im.2
  let eid ← getItem result "election_id"
  pure (dinsert recs (eid, im.1) flat)

/-- One iteration of the outer loop of `tidy_voting_methods`: skip a result
whose `voting_methods` value is falsy, otherwise enumerate its entries. -/
def methodRecordsStep (records : List ((Val × Nat) × List (String × Val)))
    (result : Val) :
    Except String (List ((Val × Nat) × List (String × Val))) := do
  let vm ← getItem result "voting_methods"
  if vm.truthy then do
    let methods ← vm.iterate
    methods.enum.foldlM (methodEntryStep result) records
  else
    pure records

/-- The accumulation loop of `tidy_voting_methods`: for each result with a
truthy `voting_methods` value, enumerate its entries and store the flattened
method under the key `(result["election_id"], position)`. -/
def methodRecords (results : List Val) :
    Except String (List ((Val × Nat) × List (String × Val))) :=
  results.foldlM methodRecordsStep []

/-- `tidy_voting_methods(results)`: the method records as a table indexed by
`(election_id, method position)`, with columns renamed by `methodColumn`.
When the records dict is non-empty its tuple keys make `from_dict` build a
two-level `MultiIndex`, and `rename_axis(["election_id", "method_id"])`
succeeds; when it is empty the index is a flat empty `Index` and
`rename_axis` with two names raises `ValueError`, so the empty table is
never returned. -/
def tidy_voting_methods (results : List Val) : Except String VTable := do
  let records ← methodRecords results
  if records.isEmpty then
    Except.error "ValueError: Length of new names must be 1, got 2"
  else
    pure (records.map (fun p => (p.1, p.2.map (fun c => (methodColumn c.1, c.2)))))

/-- `process_voting_methods(results)`. -/
def process_voting_methods (results : List Val) : Except String VTable :=
  tidy_voting_methods results

/-- The `__main__` pipeline after the JSON has been read: extract the result
records, build the elections table, then the voting-methods table. -/
def run_main (raw : Val) : Except String (CombinedTable × VTable) := do
  let results ← extract_results raw
  let elections ← process_elections results
  let methods ← process_voting_methods results
  pure (elections, methods)

/-- The processing stage of `__main__` once the records are extracted. -/
def run_processing (results : List Val) : Except String (CombinedTable × VTable) := do
  let elections ← process_elections results
  let methods ← process_voting_methods results
  pure (elections, methods)

/-- The election id of a result record, as looked up by the extractors
(`vnan`, pandas' missing marker, when the lookup would fail). -/
def resultId (r : Val) : Val :=
  match getItem r "election_id" with
  | Except.ok v => v
  | Except.error _ => Val.vnan

/-- The election ids of a result sequence, in order. -/
def electionIds (results : List Val) : List Val := results.map resultId

/-- The `voting_methods` list of a result record (`[]` when absent or not a
list), used to state properties of `tidy_voting_methods`. -/
def votingMethodsList (r : Val) : List Val :=
  match getItem r "voting_methods" with
  | Except.ok (Val.vlist ms) => ms
  | _ => []

/-- The `results` list of a page (`[]` when absent or not a list), used to
state properties of `extract_results`. -/
def pageResults (page : Val) : List Val :=
  match getItem page "results" with
  | Except.ok (Val.vlist l) => l
  | _ => []

/-- Pure accumulation of entries into a Python dict. -/
def dictOf {κ α : Type} [BEq κ] (entries : List (κ × α)) : List (κ × α) :=
  entries.foldl (fun d e => dinsert d e.1 e.2) []

theorem getItem_vdict (d : List (String × Val)) (k : String) :
    getItem (Val.vdict d) k =
      match lookupD d k with
      | some v => Except.ok v
      | none => Except.error ("KeyError: " ++ k) := by
  simp only [getItem, lookupD]
  cases d.find? (fun p => p.1 == k) <;> rfl

theorem getItem_ok_iff (d : List (String × Val)) (k : String) (v : Val) :
    getItem (Val.vdict d) k = Except.ok v ↔ lookupD d k = some v := by
  rw [getItem_vdict]
  cases h : lookupD d k <;> simp

theorem lookupD_cons {κ α : Type} [BEq κ] (p : κ × α) (l : List (κ × α)) (k : κ) :
    lookupD (p :: l) k = if (p.1 == k) = true then some p.2 else lookupD l k := by
  cases hpk : (p.1 == k) <;> simp [lookupD, List.find?, hpk]

theorem lookupD_append {κ α : Type} [BEq κ] (d e : List (κ × α)) (k : κ) :
    lookupD (d ++ e) k =
      match lookupD d k with
      | some v => some v
      | none => lookupD e k := by
  simp only [lookupD, List.find?_append]
  cases d.find? (fun p => p.1 == k) <;> rfl

theorem lookupD_eq_none {κ α : Type} [BEq κ] [LawfulBEq κ] (d : List (κ × α)) (k : κ)
    (h : ∀ p ∈ d, p.1 ≠ k) : lookupD d k = none := by
  induction d with
  | nil => rfl
  | cons p rest ih =>
    have hp : ¬ (p.1 == k) = true := by
      simpa using h p (List.mem_cons_self p rest)
    rw [lookupD_cons, if_neg hp]
    exact ih (fun q hq => h q (List.mem_cons_of_mem p hq))

theorem any_key_eq_mem {κ α : Type} [BEq κ] [LawfulBEq κ] (d : List (κ × α)) (k : κ) :
    d.any (fun p => p.1 == k) = decide (k ∈ d.map Prod.fst) := by
  induction d with
  | nil => rfl
  | cons p rest ih =>
    by_cases h : p.1 = k
    · simp [h]
    · have h1 : (p.1 == k) = false := by simpa using h
      have h2 : (k == p.1) = false := by simpa using fun hh => h hh.symm
      simp [h1, h2, ih]

theorem dinsert_not_mem {κ α : Type} [BEq κ] [LawfulBEq κ] (d : List (κ × α)) (k : κ)
    (v : α) (h : k ∉ d.map Prod.fst) : dinsert d k v = d ++ [(k, v)] := by
  simp only [dinsert, any_key_eq_mem]
  simp [h]

theorem keys_dinsert {κ α : Type} [BEq κ] [LawfulBEq κ] (d : List (κ × α)) (k : κ) (v : α) :
    (dinsert d k v).map Prod.fst =
      if k ∈ d.map Prod.fst then d.map Prod.fst else d.map Prod.fst ++ [k] := by
  simp only [dinsert, any_key_eq_mem]
  by_cases h : k ∈ d.map Prod.fst
  · rw [if_pos (by simpa using h), if_pos h, List.map_map]
    refine List.map_congr_left (fun p _ => ?_)
    by_cases hp : p.1 = k <;> simp [hp]
  · rw [if_neg (by simpa using h), if_neg h]
    simp

theorem lookupD_mapReplace_self {κ α : Type} [BEq κ] [LawfulBEq κ] (d : List (κ × α))
    (k : κ) (v : α) (h : k ∈ d.map Prod.fst) :
    lookupD (d.map (fun p => if (p.1 == k) = true then (p.1, v) else p)) k = some v := by
  induction d with
  | nil => simp at h
  | cons p rest ih =>
    by_cases hp : p.1 = k
    · rw [List.map_cons, if_pos (by simpa using hp), lookupD_cons]
      simp [hp]
    · have hk : k ∈ rest.map Prod.fst := by
        simp only [List.map_cons, List.mem_cons] at h
        exact h.resolve_left (fun hh => hp hh.symm)
      rw [List.map_cons, if_neg (by simpa using hp), lookupD_cons,
        if_neg (by simpa using hp)]
      exact ih hk

theorem lookupD_mapReplace_ne {κ α : Type} [BEq κ] [LawfulBEq κ] (d : List (κ × α))
    (k k' : κ) (v : α) (h : k' ≠ k) :
    lookupD (d.map (fun p => if (p.1 == k) = true then (p.1, v) else p)) k' =
      lookupD d k' := by
  induction d with
  | nil => rfl
  | cons p rest ih =>
    by_cases hp : p.1 = k
    · rw [List.map_cons, if_pos (by simpa using hp), lookupD_cons, lookupD_cons]
      have : ¬ (p.1 == k') = true := by simpa [hp] using fun hh => h hh.symm
      rw [if_neg (by simpa [hp] using this), if_neg this]
      exact ih
    · rw [List.map_cons, if_neg (by simpa using hp), lookupD_cons, lookupD_cons]
      cases hpk : (p.1 == k') <;> simp [hpk, ih]

theorem lookupD_dinsert_self {κ α : Type} [BEq κ] [LawfulBEq κ] (d : List (κ × α))
    (k : κ) (v : α) : lookupD (dinsert d k v) k = some v := by
  simp only [dinsert, any_key_eq_mem]
  by_cases h : k ∈ d.map Prod.fst
  · rw [if_pos (by simpa using h)]
    exact lookupD_mapReplace_self d k v h
  · rw [if_neg (by simpa using h), lookupD_append]
    rw [lookupD_eq_none d k (fun p hp hpk => h (List.mem_map.mpr ⟨p, hp, hpk⟩))]
    simp [lookupD, List.find?]

theorem lookupD_dinsert_ne {κ α : Type} [BEq κ] [LawfulBEq κ] (d : List (κ × α))
    (k k' : κ) (v : α) (h : k' ≠ k) : lookupD (dinsert d k v) k' = lookupD d k' := by
  simp only [dinsert, any_key_eq_mem]
  by_cases hm : k ∈ d.map Prod.fst
  · rw [if_pos (by simpa using hm)]
    exact lookupD_mapReplace_ne d k k' v h
  · rw [if_neg (by simpa using hm), lookupD_append]
    cases hl : lookupD d k'
    · have : ¬ (k == k') = true := by simpa using fun hh => h hh.symm
      simp [lookupD, List.find?, this]
    · rfl

theorem nodup_keys_dinsert {κ α : Type} [BEq κ] [LawfulBEq κ] (d : List (κ × α))
    (k : κ) (v : α) (h : (d.map Prod.fst).Nodup) :
    ((dinsert d k v).map Prod.fst).Nodup := by
  rw [keys_dinsert]
  by_cases hm : k ∈ d.map Prod.fst
  · simpa [hm]
  · simpa [hm, List.nodup_append] using h
@[simp] theorem except_bind_ok {α β : Type} (a : α) (f : α → Except String β) :
    (Except.ok a >>= f) = f a := rfl

@[simp] theorem except_bind_error {α β : Type} (msg : String) (f : α → Except String β) :
    ((Except.error msg : Except String α) >>= f) = Except.error msg := rfl

@[simp] theorem except_pure {α : Type} (a : α) :
    (pure a : Except String α) = Except.ok a := rfl

theorem foldlM_error_of_mem {α β : Type} (f : β → α → Except String β) (l : List α)
    (a : α) (ha : a ∈ l) (herr : ∀ b, ∃ msg, f b a = Except.error msg) :
    ∀ init, ∃ msg, l.foldlM f init = Except.error msg := by
  induction l with
  | nil => cases ha
  | cons x xs ih =>
    intro init
    rcases List.mem_cons.mp ha with rfl | hmem
    · rcases herr init with ⟨msg, hmsg⟩
      exact ⟨msg, by rw [List.foldlM_cons, hmsg, except_bind_error]⟩
    · cases hx : f init x with
      | error msg => exact ⟨msg, by rw [List.foldlM_cons, hx, except_bind_error]⟩
      | ok b =>
        rcases ih hmem b with ⟨msg, hmsg⟩
        exact ⟨msg, by rw [List.foldlM_cons, hx, except_bind_ok, hmsg]⟩

theorem any_beq_eq_mem {α : Type} [BEq α] [LawfulBEq α] (l : List α) (a : α) :
    (l.any (fun b => b == a)) = decide (a ∈ l) := by
  induction l with
  | nil => rfl
  | cons x xs ih =>
    by_cases h : x = a
    · simp [h]
    · have h1 : (x == a) = false := by simpa using h
      have h2 : (a == x) = false := by simpa using fun hh => h hh.symm
      simp [h1, h2, ih]

theorem dedupFirst_eq_foldl {α : Type} [BEq α] [LawfulBEq α] (l : List α) :
    dedupFirst l = l.foldl (fun ks k => if k ∈ ks then ks else ks ++ [k]) [] := by
  unfold dedupFirst
  congr 1
  funext ks k
  rw [any_beq_eq_mem]
  by_cases h : k ∈ ks <;> simp [h]

theorem keyFold_mem {α : Type} [BEq α] [LawfulBEq α] (l : List α) :
    ∀ (init : List α) (a : α),
      a ∈ l.foldl (fun ks k => if k ∈ ks then ks else ks ++ [k]) init ↔
        a ∈ init ∨ a ∈ l := by
  induction l with
  | nil => intro init a; simp
  | cons x xs ih =>
    intro init a
    rw [List.foldl_cons, ih]
    by_cases hx : x ∈ init
    · rw [if_pos hx]
      constructor
      · rintro (h | h)
        · exact Or.inl h
        · exact Or.inr (List.mem_cons_of_mem x h)
      · rintro (h | h)
        · exact Or.inl h
        · rcases List.mem_cons.mp h with rfl | h
          · exact Or.inl hx
          · exact Or.inr h
    · rw [if_neg hx]
      simp only [List.mem_append, List.mem_singleton, List.mem_cons]
      tauto

theorem keyFold_nodup {α : Type} [BEq α] [LawfulBEq α] (l : List α) :
    ∀ init : List α, init.Nodup →
      (l.foldl (fun ks k => if k ∈ ks then ks else ks ++ [k]) init).Nodup := by
  induction l with
  | nil => intro init h; exact h
  | cons x xs ih =>
    intro init h
    rw [List.foldl_cons]
    by_cases hx : x ∈ init
    · rw [if_pos hx]; exact ih init h
    · rw [if_neg hx]
      exact ih _ (by simp [List.nodup_append, h, hx])

theorem keyFold_fresh {α : Type} [BEq α] [LawfulBEq α] (l : List α) :
    ∀ init : List α, (∀ a ∈ l, a ∉ init) → l.Nodup →
      l.foldl (fun ks k => if k ∈ ks then ks else ks ++ [k]) init = init ++ l := by
  induction l with
  | nil => intro init _ _; simp
  | cons x xs ih =>
    intro init hdisj hnodup
    rw [List.foldl_cons, if_neg (hdisj x (List.mem_cons_self x xs))]
    rw [ih (init ++ [x]) ?_ (List.Nodup.of_cons hnodup), List.append_assoc]
    · rfl
    · intro a ha
      simp only [List.mem_append, List.mem_singleton]
      rintro (h | rfl)
      · exact hdisj a (List.mem_cons_of_mem x ha) h
      · exact (List.nodup_cons.mp hnodup).1 ha

theorem keyFold_absorb {α : Type} [BEq α] [LawfulBEq α] (l : List α) :
    ∀ init : List α, (∀ a ∈ l, a ∈ init) →
      l.foldl (fun ks k => if k ∈ ks then ks else ks ++ [k]) init = init := by
  induction l with
  | nil => intro init _; rfl
  | cons x xs ih =>
    intro init h
    rw [List.foldl_cons, if_pos (h x (List.mem_cons_self x xs))]
    exact ih init (fun a ha => h a (List.mem_cons_of_mem x ha))

theorem mem_dedupFirst {α : Type} [BEq α] [LawfulBEq α]
    (l : List α) (a : α) : a ∈ dedupFirst l ↔ a ∈ l := by
  rw [dedupFirst_eq_foldl, keyFold_mem]
  simp

theorem dedupFirst_nodup {α : Type} [BEq α] [LawfulBEq α]
    (l : List α) : (dedupFirst l).Nodup := by
  rw [dedupFirst_eq_foldl]
  exact keyFold_nodup l [] List.nodup_nil

theorem dedupFirst_eq_self {α : Type} [BEq α] [LawfulBEq α]
    (l : List α) (h : l.Nodup) : dedupFirst l = l := by
  rw [dedupFirst_eq_foldl]
  simpa using keyFold_fresh l [] (by simp) h

theorem dedupFirst_append_subset {α : Type} [BEq α] [LawfulBEq α]
    (l1 l2 : List α) (h : ∀ a ∈ l2, a ∈ l1) :
    dedupFirst (l1 ++ l2) = dedupFirst l1 := by
  rw [dedupFirst_eq_foldl, List.foldl_append, ← dedupFirst_eq_foldl]
  exact keyFold_absorb l2 (dedupFirst l1)
    (fun a ha => (mem_dedupFirst l1 a).mpr (h a ha))

theorem keys_foldl_dinsert {κ α : Type} [BEq κ] [LawfulBEq κ] (entries : List (κ × α)) :
    ∀ init : List (κ × α),
      (entries.foldl (fun d e => dinsert d e.1 e.2) init).map Prod.fst =
        (entries.map Prod.fst).foldl (fun ks k => if k ∈ ks then ks else ks ++ [k])
          (init.map Prod.fst) := by
  induction entries with
  | nil => intro init; rfl
  | cons e rest ih =>
    intro init
    rw [List.foldl_cons, List.map_cons, List.foldl_cons, ih, keys_dinsert]

theorem keys_dictOf {κ α : Type} [BEq κ] [LawfulBEq κ] (entries : List (κ × α)) :
    (dictOf entries).map Prod.fst = dedupFirst (entries.map Prod.fst) := by
  rw [dictOf, keys_foldl_dinsert, dedupFirst_eq_foldl]
  rfl

theorem lookupD_foldl_dinsert {κ α : Type} [BEq κ] [LawfulBEq κ]
    (entries : List (κ × α)) :
    ∀ (init : List (κ × α)) (k : κ),
      lookupD (entries.foldl (fun d e => dinsert d e.1 e.2) init) k =
        match entries.reverse.find? (fun e => e.1 == k) with
        | some e => some e.2
        | none => lookupD init k := by
  induction entries with
  | nil => intro init k; rfl
  | cons e rest ih =>
    intro init k
    rw [List.foldl_cons, ih, List.reverse_cons, List.find?_append]
    cases hfind : rest.reverse.find? (fun e => e.1 == k)
    · by_cases hk : e.1 = k
      · subst hk
        simp [List.find?_singleton, lookupD_dinsert_self]
      · have hne : (e.1 == k) = false := by simpa using hk
        simp [List.find?_singleton, hne,
          lookupD_dinsert_ne init e.1 k e.2 (fun hh => hk hh.symm)]
    · simp [hfind]

theorem lookupD_dictOf {κ α : Type} [BEq κ] [LawfulBEq κ] (entries : List (κ × α))
    (k : κ) :
    lookupD (dictOf entries) k = (entries.reverse.find? (fun e => e.1 == k)).map Prod.snd := by
  rw [dictOf, lookupD_foldl_dinsert]
  cases h : entries.reverse.find? (fun e => e.1 == k) <;> rfl
theorem recordLoop_go (value : Val → Except String Val) (results : List Val)
    (E : Val → Val × Val) (h : ∀ r ∈ results, recordEntry value r = Except.ok (E r)) :
    ∀ init : List (Val × Val),
      results.foldlM (fun records result => do
        let e ← recordEntry value result
        pure (dinsert records e.1 e.2)) init =
      Except.ok ((results.map E).foldl (fun d e => dinsert d e.1 e.2) init) := by
  induction results with
  | nil => intro init; rfl
  | cons r rest ih =>
    intro init
    rw [List.foldlM_cons, h r (List.mem_cons_self r rest)]
    simp only [except_bind_ok, except_pure, except_bind_ok, List.map_cons, List.foldl_cons]
    exact ih (fun q hq => h q (List.mem_cons_of_mem r hq)) _

theorem recordLoop_ok_of (value : Val → Except String Val) (results : List Val)
    (E : Val → Val × Val) (h : ∀ r ∈ results, recordEntry value r = Except.ok (E r)) :
    recordLoop value results = Except.ok (dictOf (results.map E)) :=
  recordLoop_go value results E h []

theorem recordLoop_error (value : Val → Except String Val) (results : List Val)
    (h : ∃ r ∈ results, ∃ msg, recordEntry value r = Except.error msg) :
    ∃ msg, recordLoop value results = Except.error msg := by
  rcases h with ⟨r, hr, msg, hmsg⟩
  exact foldlM_error_of_mem _ results r hr
    (fun b => ⟨msg, by rw [hmsg, except_bind_error]⟩) []

theorem recordLoop_ok_entries (value : Val → Except String Val) (results : List Val)
    (records : List (Val × Val)) (h : recordLoop value results = Except.ok records) :
    ∀ r ∈ results, ∃ e, recordEntry value r = Except.ok e := by
  intro r hr
  cases he : recordEntry value r with
  | ok e => exact ⟨e, rfl⟩
  | error msg =>
    rcases recordLoop_error value results ⟨r, hr, msg, he⟩ with ⟨msg2, hmsg2⟩
    rw [h] at hmsg2
    cases hmsg2

/-- The entry a successful `recordEntry` produces, as a total function. -/
def entryOf (value : Val → Except String Val) (r : Val) : Val × Val :=
  match recordEntry value r with
  | Except.ok e => e
  | Except.error _ => (Val.vnan, Val.vnan)

theorem recordEntry_ok_entryOf (value : Val → Except String Val) (r : Val)
    (e : Val × Val) (h : recordEntry value r = Except.ok e) :
    entryOf value r = e := by
  rw [entryOf, h]

theorem recordEntry_parts (value : Val → Except String Val) (r : Val) (e : Val × Val)
    (h : recordEntry value r = Except.ok e) :
    getItem r "election_id" = Except.ok e.1 ∧ value r = Except.ok e.2 ∧
      e.1 = resultId r := by
  rw [recordEntry] at h
  cases hv : value r with
  | error msg => rw [hv, except_bind_error] at h; cases h
  | ok v =>
    rw [hv, except_bind_ok] at h
    cases hk : getItem r "election_id" with
    | error msg => rw [hk, except_bind_error] at h; cases h
    | ok k =>
      rw [hk, except_bind_ok] at h
      cases h
      exact ⟨by simp [hk], by simp [hv], by simp [resultId, hk]⟩

theorem recordLoop_ok_dictOf (value : Val → Except String Val) (results : List Val)
    (records : List (Val × Val)) (h : recordLoop value results = Except.ok records) :
    records = dictOf (results.map (entryOf value)) := by
  have hall : ∀ r ∈ results, recordEntry value r = Except.ok (entryOf value r) := by
    intro r hr
    rcases recordLoop_ok_entries value results records h r hr with ⟨e, he⟩
    rw [recordEntry_ok_entryOf value r e he]
    exact he
  have := recordLoop_ok_of value results (entryOf value) hall
  rw [h] at this
  cases this
  rfl

theorem mapM_ok_of {α β : Type} (f : α → Except String β) (g : α → β) (l : List α)
    (h : ∀ a ∈ l, f a = Except.ok (g a)) : l.mapM f = Except.ok (l.map g) := by
  induction l with
  | nil => rfl
  | cons a rest ih =>
    rw [List.mapM_cons, h a (List.mem_cons_self a rest)]
    simp only [except_bind_ok]
    rw [ih (fun q hq => h q (List.mem_cons_of_mem a hq))]
    rfl

theorem mapM_ok_forall {α β : Type} (f : α → Except String β) (l : List α)
    (ys : List β) (h : l.mapM f = Except.ok ys) :
    ∀ a ∈ l, ∃ b, f a = Except.ok b := by
  induction l generalizing ys with
  | nil => intro a ha; cases ha
  | cons x rest ih =>
    intro a ha
    rw [List.mapM_cons] at h
    cases hx : f x with
    | error msg => rw [hx, except_bind_error] at h; cases h
    | ok b =>
      rw [hx, except_bind_ok] at h
      cases hrest : rest.mapM f with
      | error msg => rw [hrest, except_bind_error] at h; cases h
      | ok bs =>
        rcases List.mem_cons.mp ha with rfl | ha2
        · exact ⟨b, hx⟩
        · exact ih bs hrest a ha2
@[simp] theorem except_map_ok_eq {α β : Type} (f : α → β) (a : α) :
    (Except.ok a : Except String α).map f = Except.ok (f a) := rfl

theorem except_map_ok {α β : Type} (f : α → β) (x : Except String α) (b : β)
    (h : x.map f = Except.ok b) : ∃ a, x = Except.ok a ∧ b = f a := by
  cases x with
  | ok a => exact ⟨a, rfl, by cases h; rfl⟩
  | error msg => cases h

theorem entryOf_fst (value : Val → Except String Val) (r : Val)
    (h : ∃ e, recordEntry value r = Except.ok e) :
    (entryOf value r).1 = resultId r := by
  rcases h with ⟨e, he⟩
  rw [recordEntry_ok_entryOf value r e he]
  exact (recordEntry_parts value r e he).2.2

theorem recordLoop_keys (value : Val → Except String Val) (results : List Val)
    (records : List (Val × Val)) (h : recordLoop value results = Except.ok records) :
    records.map Prod.fst = dedupFirst (electionIds results) := by
  rw [recordLoop_ok_dictOf value results records h, keys_dictOf, electionIds,
    List.map_map]
  congr 1
  refine List.map_congr_left (fun r hr => ?_)
  exact entryOf_fst value r (recordLoop_ok_entries value results records h r hr)

theorem tidy_names_parts (results : List Val) (n : Table)
    (h : tidy_names results = Except.ok n) :
    ∃ records, recordLoop nameValue results = Except.ok records ∧
      n = records.map (fun p => (p.1, [("election_name", p.2)])) := by
  rcases except_map_ok _ _ _ h with ⟨records, hrec, hn⟩
  exact ⟨records, hrec, hn⟩

theorem tidy_names_index (results : List Val) (n : Table)
    (h : tidy_names results = Except.ok n) :
    tableIndex n = dedupFirst (electionIds results) := by
  rcases tidy_names_parts results n h with ⟨records, hrec, hn⟩
  rw [hn, tableIndex, List.map_map]
  exact recordLoop_keys nameValue results records hrec

theorem frameFromDict_parts (records : List (Val × Val)) (t : Table)
    (h : frameFromDict records = Except.ok t) :
    t.map Prod.fst = records.map Prod.fst := by
  induction records generalizing t with
  | nil => cases h; rfl
  | cons p rest ih =>
    rw [frameFromDict, List.mapM_cons] at h
    cases hrow : rowOfVal p.2 with
    | error msg => rw [hrow] at h; cases h
    | ok row =>
      rw [hrow] at h
      simp only [except_map_ok_eq, except_bind_ok] at h
      cases hrest : rest.mapM
          (fun p => (rowOfVal p.2).map (fun row => (p.1, row))) with
      | error msg => rw [hrest] at h; cases h
      | ok bs =>
        rw [hrest, except_bind_ok] at h
        cases h
        rw [List.map_cons, List.map_cons]
        rw [ih bs hrest]

theorem tidy_districts_index (results : List Val) (d : Table)
    (h : tidy_districts results = Except.ok d) :
    tableIndex d = dedupFirst (electionIds results) := by
  rw [tidy_districts] at h
  cases hrec : recordLoop districtValue results with
  | error msg => rw [hrec] at h; cases h
  | ok records =>
    rw [hrec, except_bind_ok] at h
    rw [tableIndex, frameFromDict_parts records d h]
    exact recordLoop_keys districtValue results records hrec

theorem tidy_verified_index (results : List Val) (v : Table)
    (h : tidy_verified results = Except.ok v) :
    tableIndex v = dedupFirst (electionIds results) := by
  rw [tidy_verified] at h
  cases hrec : recordLoop verifiedValue results with
  | error msg => rw [hrec] at h; cases h
  | ok records =>
    rw [hrec, except_bind_ok] at h
    cases ht : frameFromDict records with
    | error msg => rw [ht, except_bind_error] at h; cases h
    | ok t =>
      rw [ht, except_bind_ok, except_pure] at h
      cases h
      rw [tableIndex, List.map_map]
      have : ((fun p => (p.1, p.2.map (fun c => (renameVerifiedColumn c.1, c.2)))) ∘
          (fun p : Val × List (String × Val) => p)) = id ∘
          (fun p : Val × List (String × Val) =>
            (p.1, p.2.map (fun c => (renameVerifiedColumn c.1, c.2)))) := rfl
      calc (t.map fun p => Prod.fst
              ((fun p : Val × List (String × Val) =>
                (p.1, p.2.map (fun c => (renameVerifiedColumn c.1, c.2)))) p))
          = t.map Prod.fst := by
            refine List.map_congr_left (fun p _ => rfl)
        _ = records.map Prod.fst := frameFromDict_parts records t ht
        _ = dedupFirst (electionIds results) :=
            recordLoop_keys verifiedValue results records hrec

/-- The row `tidy_elections` produces for one result record. -/
def electionsRecordRow (r : Val) : Val × List (String × Val) :=
  match r with
  | Val.vdict d => ((lookupD d "election_id").getD Val.vnan, electionsRow d)
  | _ => (Val.vnan, [])

theorem electionsRecordRow_fst (r : Val) :
    (electionsRecordRow r).1 = resultId r := by
  cases r with
  | vnone => rfl
  | vnan => rfl
  | vbool b => rfl
  | vint n => rfl
  | vstr s => rfl
  | vlist l => rfl
  | vdict d =>
    simp only [electionsRecordRow, resultId, getItem_vdict]
    cases h : lookupD d "election_id" <;> simp [h]

theorem tidy_elections_ok_rows (results : List Val) (rows : Table)
    (h : tidy_elections results = Except.ok rows) :
    rows = results.map electionsRecordRow ∧
      (∀ r ∈ results, ∃ d, r = Val.vdict d) ∧
      results.any (fun r => r.hasKey "election_id") = true := by
  rw [tidy_elections] at h
  cases hm : results.mapM (fun result =>
      match result with
      | Val.vdict d =>
          Except.ok ((lookupD d "election_id").getD Val.vnan, electionsRow d)
      | _ => Except.error "TypeError: from_records expects mapping records") with
  | error msg => rw [hm, except_bind_error] at h; cases h
  | ok rows0 =>
    rw [hm, except_bind_ok] at h
    have hdicts : ∀ r ∈ results, ∃ d, r = Val.vdict d := by
      intro r hr
      rcases mapM_ok_forall _ results rows0 hm r hr with ⟨b, hb⟩
      cases r with
      | vdict d => exact ⟨d, rfl⟩
      | vnone => cases hb
      | vnan => cases hb
      | vbool b2 => cases hb
      | vint n => cases hb
      | vstr s => cases hb
      | vlist l => cases hb
    have hmap : rows0 = results.map electionsRecordRow := by
      have hok : ∀ r ∈ results, (fun result => match result with
          | Val.vdict d =>
              Except.ok ((lookupD d "election_id").getD Val.vnan, electionsRow d)
          | _ => Except.error "TypeError: from_records expects mapping records") r
          = Except.ok (electionsRecordRow r) := by
        intro r hr
        rcases hdicts r hr with ⟨d, rfl⟩
        rfl
      have hmm := mapM_ok_of _ electionsRecordRow results hok
      have h2 := hmm.symm.trans hm
      exact (Except.ok.injEq _ _).mp h2.symm
    by_cases hany : results.any (fun r => r.hasKey "election_id") = true
    · rw [if_pos hany, except_pure] at h
      cases h
      exact ⟨hmap, hdicts, hany⟩
    · rw [if_neg hany] at h
      cases h

theorem tidy_elections_index (results : List Val) (rows : Table)
    (h : tidy_elections results = Except.ok rows) :
    tableIndex rows = electionIds results := by
  rcases tidy_elections_ok_rows results rows h with ⟨hmap, _, _⟩
  rw [tableIndex, hmap, List.map_map, electionIds]
  exact List.map_congr_left (fun r _ => electionsRecordRow_fst r)
theorem process_elections_parts (results : List Val) (combined : CombinedTable)
    (h : process_elections results = Except.ok combined) :
    ∃ e n d v, tidy_elections results = Except.ok e ∧
      tidy_names results = Except.ok n ∧
      tidy_districts results = Except.ok d ∧
      tidy_verified results = Except.ok v ∧
      pdConcatCols [e, n, d, v] = Except.ok combined := by
  rw [process_elections] at h
  cases he : tidy_elections results with
  | error msg => rw [he, except_bind_error] at h; cases h
  | ok e =>
    rw [he, except_bind_ok] at h
    cases hn : tidy_names results with
    | error msg => rw [hn, except_bind_error] at h; cases h
    | ok n =>
      rw [hn, except_bind_ok] at h
      cases hd : tidy_districts results with
      | error msg => rw [hd, except_bind_error] at h; cases h
      | ok d =>
        rw [hd, except_bind_ok] at h
        cases hv : tidy_verified results with
        | error msg => rw [hv, except_bind_error] at h; cases h
        | ok v =>
          rw [hv, except_bind_ok] at h
          exact ⟨e, n, d, v, rfl, rfl, rfl, rfl, h⟩

theorem process_elections_aligned (results : List Val) (combined : CombinedTable)
    (h : process_elections results = Except.ok combined)
    (hnodup : (electionIds results).Nodup) :
    ∃ e n d v, tidy_elections results = Except.ok e ∧
      tidy_names results = Except.ok n ∧
      tidy_districts results = Except.ok d ∧
      tidy_verified results = Except.ok v ∧
      tableIndex e = electionIds results ∧
      tableIndex n = electionIds results ∧
      tableIndex d = electionIds results ∧
      tableIndex v = electionIds results ∧
      combined = (electionIds results).map
        (fun id => (id, joinedRow [e, n, d, v] id)) := by
  rcases process_elections_parts results combined h with
    ⟨e, n, d, v, he, hn, hd, hv, hcat⟩
  have hie : tableIndex e = electionIds results := tidy_elections_index results e he
  have hin : tableIndex n = electionIds results := by
    rw [tidy_names_index results n hn, dedupFirst_eq_self _ hnodup]
  have hid : tableIndex d = electionIds results := by
    rw [tidy_districts_index results d hd, dedupFirst_eq_self _ hnodup]
  have hiv : tableIndex v = electionIds results := by
    rw [tidy_verified_index results v hv, dedupFirst_eq_self _ hnodup]
  refine ⟨e, n, d, v, he, hn, hd, hv, hie, hin, hid, hiv, ?_⟩
  have hall : ([e, n, d, v].all (fun t => decide (tableIndex t).Nodup)) = true := by
    simp only [List.all_cons, List.all_nil, Bool.and_true, Bool.and_eq_true,
      decide_eq_true_eq]
    exact ⟨hie ▸ hnodup, hin ▸ hnodup, hid ▸ hnodup, hiv ▸ hnodup⟩
  rw [pdConcatCols, if_pos hall] at hcat
  have hflat : ([e, n, d, v].flatMap tableIndex) =
      electionIds results ++ (electionIds results ++
        (electionIds results ++ electionIds results)) := by
    simp [List.flatMap, hie, hin, hid, hiv]
  have hdedup : dedupFirst ([e, n, d, v].flatMap tableIndex) =
      electionIds results := by
    rw [hflat, dedupFirst_append_subset, dedupFirst_eq_self _ hnodup]
    intro a ha
    simp only [List.mem_append] at ha
    rcases ha with ha | ha | ha <;> exact ha
  rw [outerAlign, hdedup] at hcat
  exact ((Except.ok.injEq _ _).mp hcat).symm
/-- A full sample result record with one voting method. -/
def sampleA : Val := Val.vdict [
  ("election_id", Val.vstr "A"),
  ("election_name", Val.vdict [("en_US", Val.vstr "Alpha")]),
  ("district", Val.vdict [("country", Val.vstr "US"), ("state", Val.vstr "VA")]),
  ("third_party_verified", Val.vdict [("is_verified", Val.vbool true), ("date", Val.vstr "2020")]),
  ("voting_methods", Val.vlist [Val.vdict [
    ("instructions", Val.vdict [("voting-id", Val.vdict [("en_US", Val.vstr "bring id")])]),
    ("excuse-required", Val.vbool false)]]),
  ("start", Val.vstr "s1")]

/-- A sample result record with an empty voting-methods list. -/
def sampleB : Val := Val.vdict [
  ("election_id", Val.vstr "B"),
  ("election_name", Val.vdict [("en_US", Val.vstr "Beta")]),
  ("district", Val.vdict [("country", Val.vstr "US")]),
  ("third_party_verified", Val.vdict [("is_verified", Val.vbool false), ("date", Val.vnone)]),
  ("voting_methods", Val.vlist []),
  ("start", Val.vstr "s2")]

/-- A second sample record carrying the same election id as `sampleA`. -/
def sampleA2 : Val := Val.vdict [
  ("election_id", Val.vstr "A"),
  ("election_name", Val.vdict [("en_US", Val.vstr "Alpha2")]),
  ("district", Val.vdict [("country", Val.vstr "FR")]),
  ("third_party_verified", Val.vdict [("is_verified", Val.vbool true), ("date", Val.vstr "2021")]),
  ("voting_methods", Val.vlist []),
  ("start", Val.vstr "s3")]

/-- A page holding `sampleA`. -/
def pageOne : Val := Val.vdict [("results", Val.vlist [sampleA])]

/-- A page holding `sampleB`. -/
def pageTwo : Val := Val.vdict [("results", Val.vlist [sampleB])]

@[simp] theorem iterate_vlist (l : List Val) :
    (Val.vlist l).iterate = Except.ok l := rfl

@[simp] theorem except_pure_bind {α β : Type} (a : α) (f : α → Except String β) :
    ((pure a : Except String α) >>= f) = f a := rfl

theorem extract_results_go (pages : List Val)
    (h : ∀ p ∈ pages, ∃ l, getItem p "results" = Except.ok (Val.vlist l)) :
    ∀ acc : List Val,
      pages.foldlM (fun results page => do
        let r ← getItem page "results"
        let items ← r.iterate
        pure (results ++ items)) acc =
      Except.ok (acc ++ pages.flatMap pageResults) := by
  induction pages with
  | nil => intro acc; simp
  | cons p rest ih =>
    intro acc
    rcases h p (List.mem_cons_self p rest) with ⟨l, hl⟩
    have hpr : pageResults p = l := by rw [pageResults, hl]
    simp only [List.foldlM_cons, hl, except_bind_ok, iterate_vlist, except_pure_bind]
    rw [ih (fun q hq => h q (List.mem_cons_of_mem p hq)) (acc ++ l)]
    rw [List.flatMap_cons, hpr, List.append_assoc]

/-- C8: for a list of pages each carrying a `results` list, `extract_results`
returns the concatenation of those lists, preserving the order of pages and
of records within each page; its length is the sum of the per-page lengths. -/
theorem extract_results_concatenates (pages : List Val)
    (h : ∀ p ∈ pages, ∃ l, getItem p "results" = Except.ok (Val.vlist l)) :
    extract_results (Val.vlist pages) = Except.ok (pages.flatMap pageResults) ∧
    (pages.flatMap pageResults).length =
      (pages.map (fun p => (pageResults p).length)).sum := by
  constructor
  · simp only [extract_results, iterate_vlist, except_bind_ok]
    simpa using extract_results_go pages h []
  · rw [List.length_flatMap]
    rfl

/-- Witness for C8 at a concrete two-page input. -/
theorem extract_results_concatenates_witness :
    extract_results (Val.vlist [pageOne, pageTwo]) =
      Except.ok ([pageOne, pageTwo].flatMap pageResults) ∧
    ([pageOne, pageTwo].flatMap pageResults).length =
      ([pageOne, pageTwo].map (fun p => (pageResults p).length)).sum :=
  extract_results_concatenates [pageOne, pageTwo] (by
    intro p hp
    rcases List.mem_cons.mp hp with rfl | hp2
    · exact ⟨[sampleA], rfl⟩
    · rcases List.mem_cons.mp hp2 with rfl | hp3
      · exact ⟨[sampleB], rfl⟩
      · cases hp3)

/-- C9: the pipeline is deterministic: equal inputs produce equal extracted
records, equal elections tables and equal voting-methods tables. -/
theorem pipeline_deterministic (raw1 raw2 : Val) (h : raw1 = raw2) :
    run_main raw1 = run_main raw2 ∧
    extract_results raw1 = extract_results raw2 ∧
    ∀ results1 results2 : List Val, results1 = results2 →
      process_elections results1 = process_elections results2 ∧
      process_voting_methods results1 = process_voting_methods results2 := by
  subst h
  exact ⟨rfl, rfl, fun r1 r2 hr => by subst hr; exact ⟨rfl, rfl⟩⟩

/-- Witness for C9 at a concrete input. -/
theorem pipeline_deterministic_witness :
    run_main (Val.vlist [pageOne, pageTwo]) = run_main (Val.vlist [pageOne, pageTwo]) ∧
    extract_results (Val.vlist [pageOne, pageTwo]) =
      extract_results (Val.vlist [pageOne, pageTwo]) ∧
    ∀ results1 results2 : List Val, results1 = results2 →
      process_elections results1 = process_elections results2 ∧
      process_voting_methods results1 = process_voting_methods results2 :=
  pipeline_deterministic (Val.vlist [pageOne, pageTwo]) (Val.vlist [pageOne, pageTwo]) rfl
/-- C6: column renaming is exact: `tidy_verified` renames `is_verified` to
`verified` and `date` to `verified_date` and leaves every other column
unchanged; `tidy_voting_methods` renames every method field `f` to
`method_f` with hyphens replaced by underscores, so `excuse-required`
becomes `method_excuse_required`; and every table the transform returns is
exactly the method records with `methodColumn` applied to every column. -/
theorem column_renaming_exact :
    renameVerifiedColumn "is_verified" = "verified" ∧
    renameVerifiedColumn "date" = "verified_date" ∧
    (∀ c, c ≠ "is_verified" → c ≠ "date" → renameVerifiedColumn c = c) ∧
    (∀ f, methodColumn f = "method_" ++ hyphenToUnderscore f) ∧
    methodColumn "excuse-required" = "method_excuse_required" ∧
    ∀ results t, tidy_voting_methods results = Except.ok t →
      ∃ records, methodRecords results = Except.ok records ∧
        t = records.map (fun p =>
          (p.1, p.2.map (fun c => (methodColumn c.1, c.2)))) := by
  refine ⟨rfl, rfl, ?_, ?_, by decide, ?_⟩
  · intro c h1 h2
    rw [renameVerifiedColumn, if_neg (by simpa using h1), if_neg (by simpa using h2)]
  · intro f
    cases f with
    | mk l =>
      show String.mk (("method_" ++ String.mk l).data.map _) = _
      have h1 : ("method_" ++ String.mk l).data = "method_".data ++ l := rfl
      rw [h1, List.map_append]
      have h2 : ("method_".data.map (fun c => if c == '-' then '_' else c)) =
          "method_".data := by decide
      rw [h2]
      rfl
  · intro results t hok
    rw [tidy_voting_methods] at hok
    cases h : methodRecords results with
    | error msg => rw [h, except_bind_error] at hok; cases hok
    | ok records =>
      rw [h, except_bind_ok] at hok
      by_cases hemp : records.isEmpty
      · rw [if_pos hemp] at hok; cases hok
      · rw [if_neg hemp, except_pure] at hok
        exact ⟨records, rfl, ((Except.ok.injEq _ _).mp hok).symm⟩

/-- Witness for C6: the unchanged-column and prefixing parts instantiated at
concrete column names. -/
theorem column_renaming_exact_witness :
    renameVerifiedColumn "country" = "country" ∧
    methodColumn "excuse-required" = "method_" ++ hyphenToUnderscore "excuse-required" ∧
    ∃ records, methodRecords [sampleA] = Except.ok records ∧
      [((Val.vstr "A", 0),
        [("method_excuse_required", Val.vbool false),
         ("method_instructions", Val.vstr "bring id")])] = records.map (fun p =>
          (p.1, p.2.map (fun c => (methodColumn c.1, c.2)))) :=
  ⟨column_renaming_exact.2.2.1 "country" (by decide) (by decide),
   column_renaming_exact.2.2.2.1 "excuse-required",
   column_renaming_exact.2.2.2.2.2 [sampleA]
     [((Val.vstr "A", 0),
       [("method_excuse_required", Val.vbool false),
        ("method_instructions", Val.vstr "bring id")])] rfl⟩
/-- A result record with no `voting_methods` key at all. -/
def sampleNoMethodsKey : Val := Val.vdict [("election_id", Val.vstr "A")]

theorem tidy_voting_methods_eq (results : List Val) :
    tidy_voting_methods results = (methodRecords results) >>= (fun records =>
      if records.isEmpty then
        Except.error "ValueError: Length of new names must be 1, got 2"
      else
        Except.ok (records.map (fun p =>
          (p.1, p.2.map (fun c => (methodColumn c.1, c.2)))))) := by
  rw [tidy_voting_methods]
  cases h : methodRecords results with
  | error msg => rfl
  | ok records =>
    rw [except_bind_ok, except_bind_ok]
    by_cases hemp : records.isEmpty <;> simp [hemp]

theorem methodRecordsStep_skip (r : Val) (v : Val)
    (h1 : getItem r "voting_methods" = Except.ok v) (h2 : v.truthy = false) :
    ∀ acc, methodRecordsStep acc r = Except.ok acc := by
  intro acc
  rw [methodRecordsStep, h1, except_bind_ok,
    if_neg (by rw [h2]; exact Bool.false_ne_true)]
  rfl

theorem methodRecordsStep_error (r : Val) (msg : String)
    (h : getItem r "voting_methods" = Except.error msg) :
    ∀ acc, methodRecordsStep acc r = Except.error msg := by
  intro acc
  rw [methodRecordsStep, h, except_bind_error]

theorem methodRecords_all_skip (results : List Val)
    (h : ∀ r ∈ results, ∃ v, getItem r "voting_methods" = Except.ok v ∧
      v.truthy = false) :
    ∀ acc, results.foldlM methodRecordsStep acc = Except.ok acc := by
  induction results with
  | nil => intro acc; rfl
  | cons r rest ih =>
    intro acc
    rcases h r (List.mem_cons_self r rest) with ⟨v, h1, h2⟩
    rw [List.foldlM_cons, methodRecordsStep_skip r v h1 h2, except_bind_ok]
    exact ih (fun q hq => h q (List.mem_cons_of_mem r hq)) acc

/-- C3 (counterexample): a result record with the `voting_methods` key
absent makes `tidy_voting_methods` raise an unhandled `KeyError` instead of
contributing zero rows without failing. -/
theorem voting_methods_absent_key_aborts :
    tidy_voting_methods [sampleNoMethodsKey] =
      Except.error "KeyError: voting_methods" := rfl

/-- C3 (amended): a result whose `voting_methods` value is present but falsy
(such as the empty list) contributes zero rows to the method records and the
loop does not fail on it — removing such a result from the input leaves the
outcome of `tidy_voting_methods` unchanged — but a result whose
`voting_methods` key is absent raises an unhandled `KeyError`, and when no
record contributes any method row at all the final
`rename_axis(["election_id", "method_id"])` raises `ValueError` on the flat
empty index, so the transform never returns an empty table. -/
theorem voting_methods_empty_vs_absent (results : List Val) :
    ((∀ r ∈ results, ∃ v, getItem r "voting_methods" = Except.ok v ∧
        v.truthy = false) →
      tidy_voting_methods results =
        Except.error "ValueError: Length of new names must be 1, got 2") ∧
    ((∃ r ∈ results, ∃ msg, getItem r "voting_methods" = Except.error msg) →
      ∃ msg, tidy_voting_methods results = Except.error msg) ∧
    (∀ (pre post : List Val) (r : Val),
      (∃ v, getItem r "voting_methods" = Except.ok v ∧ v.truthy = false) →
      tidy_voting_methods (pre ++ r :: post) =
        tidy_voting_methods (pre ++ post)) := by
  refine ⟨?_, ?_, ?_⟩
  · intro h
    rw [tidy_voting_methods_eq, methodRecords, methodRecords_all_skip results h [],
      except_bind_ok]
    rfl
  · rintro ⟨r, hr, msg, hmsg⟩
    have herr := foldlM_error_of_mem methodRecordsStep results r hr
      (fun b => ⟨msg, methodRecordsStep_error r msg hmsg b⟩) []
    rcases herr with ⟨msg2, hmsg2⟩
    refine ⟨msg2, ?_⟩
    rw [tidy_voting_methods_eq, methodRecords, hmsg2]
    rfl
  · rintro pre post r ⟨v, h1, h2⟩
    rw [tidy_voting_methods_eq, tidy_voting_methods_eq]
    have : methodRecords (pre ++ r :: post) = methodRecords (pre ++ post) := by
      rw [methodRecords, methodRecords, List.foldlM_append, List.foldlM_append]
      cases hpre : pre.foldlM methodRecordsStep [] with
      | error msg => rw [except_bind_error, except_bind_error]
      | ok b =>
        rw [except_bind_ok, except_bind_ok, List.foldlM_cons,
          methodRecordsStep_skip r v h1 h2, except_bind_ok]
    rw [this]

/-- Witness for C3 (amended) at concrete inputs: an empty-list record alone
leaves the records dict empty so the rename raises; such a record is
droppable next to a contributing one; an absent-key record aborts. -/
theorem voting_methods_empty_vs_absent_witness :
    tidy_voting_methods [sampleB] =
      Except.error "ValueError: Length of new names must be 1, got 2" ∧
    (∃ msg, tidy_voting_methods [sampleNoMethodsKey] = Except.error msg) ∧
    tidy_voting_methods ([sampleA] ++ sampleB :: []) =
      tidy_voting_methods ([sampleA] ++ []) := by
  refine ⟨?_, ?_, ?_⟩
  · exact (voting_methods_empty_vs_absent [sampleB]).1 (by
      intro r hr
      rcases List.mem_singleton.mp hr with rfl
      exact ⟨Val.vlist [], rfl, rfl⟩)
  · exact (voting_methods_empty_vs_absent [sampleNoMethodsKey]).2.1
      ⟨sampleNoMethodsKey, List.mem_singleton_self _,
        "KeyError: voting_methods", rfl⟩
  · exact (voting_methods_empty_vs_absent [sampleA]).2.2 [sampleA] [] sampleB
      ⟨Val.vlist [], rfl, rfl⟩
/-- The well-formed nested shape of a method's `instructions` field:
`{"voting-id": {"en_US": v}}`. -/
def nestedInstructions (v : Val) : Val :=
  Val.vdict [("voting-id", Val.vdict [("en_US", v)])]

/-- The inverse re-nesting of a flattened voting method, stated from the
specification (the source has no such function): remove the flat
`instructions` entry and re-nest its value under
`instructions → voting-id → en_US`. -/
def renestVotingMethod (flat : List (String × Val)) :
    Except String (List (String × Val)) := do
  let en ← getItem (Val.vdict flat) "instructions"
  pure (dinsert (flat.filter (fun p => p.1 != "instructions")) "instructions"
    (nestedInstructions en))

theorem lookupD_filter_ne {α : Type} (l : List (String × α)) (s k : String)
    (h : k ≠ s) :
    lookupD (l.filter (fun p => p.1 != s)) k = lookupD l k := by
  induction l with
  | nil => rfl
  | cons p rest ih =>
    by_cases hp : p.1 = s
    · rw [List.filter_cons_of_neg (by simp [hp]), lookupD_cons,
        if_neg (by simp [hp]; exact fun hh => h hh.symm), ih]
    · rw [List.filter_cons_of_pos (by simp [hp]), lookupD_cons, lookupD_cons, ih]

theorem keys_filter_ne {α : Type} (l : List (String × α)) (s : String) :
    ∀ p ∈ l.filter (fun p => p.1 != s), p.1 ≠ s := by
  intro p hp
  have := (List.mem_filter.mp hp).2
  simpa using this

/-- C4: for a method mapping whose `instructions` field has exactly the
nested shape `instructions → voting-id → en_US`, flattening and then
re-nesting recovers the original mapping exactly (as a Python dict: the same
keys bound to the same values). -/
theorem flatten_roundtrip (items : List (String × Val)) (v : Val)
    (hins : lookupD items "instructions" = some (nestedInstructions v)) :
    ∃ flat renested,
      flatten_voting_method (Val.vdict items) = Except.ok flat ∧
      renestVotingMethod flat = Except.ok renested ∧
      ∀ k, lookupD renested k = lookupD items k := by
  have hge : getItem (Val.vdict items) "instructions" =
      Except.ok (nestedInstructions v) := (getItem_ok_iff _ _ _).mpr hins
  have hvid : getItem (nestedInstructions v) "voting-id" =
      Except.ok (Val.vdict [("en_US", v)]) := rfl
  have hen : getItem (Val.vdict [("en_US", v)]) "en_US" = Except.ok v := rfl
  have hfilterkeys : "instructions" ∉
      (items.filter (fun p => p.1 != "instructions")).map Prod.fst := by
    intro hmem
    rcases List.mem_map.mp hmem with ⟨p, hp, hpk⟩
    exact keys_filter_ne items "instructions" p hp hpk
  have hflat : flatten_voting_method (Val.vdict items) =
      Except.ok (items.filter (fun p => p.1 != "instructions") ++
        [("instructions", v)]) := by
    simp only [flatten_voting_method, hge, except_bind_ok, hvid, hen, except_pure]
    rw [dinsert_not_mem _ _ _ hfilterkeys]
  have hlook : lookupD (items.filter (fun p => p.1 != "instructions") ++
      [("instructions", v)]) "instructions" = some v := by
    rw [lookupD_append, lookupD_eq_none _ _ (keys_filter_ne items "instructions")]
    rfl
  have hget : getItem (Val.vdict (items.filter (fun p => p.1 != "instructions") ++
      [("instructions", v)])) "instructions" = Except.ok v :=
    (getItem_ok_iff _ _ _).mpr hlook
  have hfilt2 : (items.filter (fun p => p.1 != "instructions") ++
      [("instructions", v)]).filter (fun p => p.1 != "instructions") =
      items.filter (fun p => p.1 != "instructions") := by
    rw [List.filter_append, List.filter_filter]
    rw [List.filter_cons_of_neg (by simp), List.filter_nil, List.append_nil]
    refine List.filter_congr (fun p _ => ?_)
    by_cases hp : p.1 = "instructions" <;> simp [hp]
  have hrenest : renestVotingMethod (items.filter (fun p => p.1 != "instructions") ++
      [("instructions", v)]) =
      Except.ok (items.filter (fun p => p.1 != "instructions") ++
        [("instructions", nestedInstructions v)]) := by
    simp only [renestVotingMethod, hget, except_bind_ok, except_pure]
    rw [hfilt2, dinsert_not_mem _ _ _ hfilterkeys]
  refine ⟨_, _, hflat, hrenest, ?_⟩
  intro k
  by_cases hk : k = "instructions"
  · subst hk
    rw [lookupD_append, lookupD_eq_none _ _ (keys_filter_ne items "instructions"),
      hins]
    rfl
  · rw [lookupD_append, lookupD_filter_ne items "instructions" k hk]
    cases hl : lookupD items k
    · rw [lookupD_cons, if_neg (by simp; exact fun hh => hk hh.symm)]
      rfl
    · rfl

/-- Witness for C4 at a concrete method whose `instructions` entry is not in
last position. -/
theorem flatten_roundtrip_witness :
    ∃ flat renested,
      flatten_voting_method (Val.vdict [
        ("excuse-required", Val.vbool false),
        ("instructions", nestedInstructions (Val.vstr "bring id")),
        ("start", Val.vnone)]) = Except.ok flat ∧
      renestVotingMethod flat = Except.ok renested ∧
      ∀ k, lookupD renested k = lookupD [
        ("excuse-required", Val.vbool false),
        ("instructions", nestedInstructions (Val.vstr "bring id")),
        ("start", Val.vnone)] k :=
  flatten_roundtrip _ (Val.vstr "bring id") rfl
theorem recordEntry_error_of_value (value : Val → Except String Val) (r : Val)
    (msg : String) (h : value r = Except.error msg) :
    recordEntry value r = Except.error msg := by
  rw [recordEntry, h, except_bind_error]

theorem tidy_names_error (results : List Val)
    (h : ∃ r ∈ results, ∃ msg, nameValue r = Except.error msg) :
    ∃ msg, tidy_names results = Except.error msg := by
  rcases h with ⟨r, hr, msg, hmsg⟩
  rcases recordLoop_error nameValue results
    ⟨r, hr, msg, recordEntry_error_of_value nameValue r msg hmsg⟩ with ⟨m2, hm2⟩
  exact ⟨m2, by rw [tidy_names, hm2]; rfl⟩

theorem tidy_districts_error (results : List Val)
    (h : ∃ r ∈ results, ∃ msg, districtValue r = Except.error msg) :
    ∃ msg, tidy_districts results = Except.error msg := by
  rcases h with ⟨r, hr, msg, hmsg⟩
  rcases recordLoop_error districtValue results
    ⟨r, hr, msg, recordEntry_error_of_value districtValue r msg hmsg⟩ with ⟨m2, hm2⟩
  exact ⟨m2, by rw [tidy_districts, hm2, except_bind_error]⟩

theorem tidy_verified_error (results : List Val)
    (h : ∃ r ∈ results, ∃ msg, verifiedValue r = Except.error msg) :
    ∃ msg, tidy_verified results = Except.error msg := by
  rcases h with ⟨r, hr, msg, hmsg⟩
  rcases recordLoop_error verifiedValue results
    ⟨r, hr, msg, recordEntry_error_of_value verifiedValue r msg hmsg⟩ with ⟨m2, hm2⟩
  exact ⟨m2, by rw [tidy_verified, hm2, except_bind_error]⟩

theorem process_elections_error (results : List Val)
    (h : (∃ msg, tidy_elections results = Except.error msg) ∨
         (∃ msg, tidy_names results = Except.error msg) ∨
         (∃ msg, tidy_districts results = Except.error msg) ∨
         (∃ msg, tidy_verified results = Except.error msg)) :
    ∃ msg, process_elections results = Except.error msg := by
  rw [process_elections]
  cases he : tidy_elections results with
  | error msg => exact ⟨msg, by rw [except_bind_error]⟩
  | ok e =>
    rw [except_bind_ok]
    cases hn : tidy_names results with
    | error msg => exact ⟨msg, by rw [except_bind_error]⟩
    | ok n =>
      rw [except_bind_ok]
      cases hd : tidy_districts results with
      | error msg => exact ⟨msg, by rw [except_bind_error]⟩
      | ok d =>
        rw [except_bind_ok]
        cases hv : tidy_verified results with
        | error msg => exact ⟨msg, by rw [except_bind_error]⟩
        | ok v =>
          rcases h with ⟨m, hm⟩ | ⟨m, hm⟩ | ⟨m, hm⟩ | ⟨m, hm⟩
          · exact absurd (he.symm.trans hm) (by simp)
          · exact absurd (hn.symm.trans hm) (by simp)
          · exact absurd (hd.symm.trans hm) (by simp)
          · exact absurd (hv.symm.trans hm) (by simp)

theorem run_processing_error (results : List Val)
    (h : (∃ msg, process_elections results = Except.error msg) ∨
         (∃ msg, process_voting_methods results = Except.error msg)) :
    ∃ msg, run_processing results = Except.error msg := by
  rw [run_processing]
  cases hpe : process_elections results with
  | error msg => exact ⟨msg, by rw [except_bind_error]⟩
  | ok e =>
    rw [except_bind_ok]
    cases hpv : process_voting_methods results with
    | error msg => exact ⟨msg, by rw [except_bind_error]⟩
    | ok m =>
      rcases h with ⟨m2, hm2⟩ | ⟨m2, hm2⟩
      · exact absurd (hpe.symm.trans hm2) (by simp)
      · exact absurd (hpv.symm.trans hm2) (by simp)

theorem mem_enumFrom_of_mem {α : Type} (l : List α) (a : α) (h : a ∈ l) :
    ∀ j, ∃ i, (i, a) ∈ l.enumFrom j := by
  induction l with
  | nil => cases h
  | cons x xs ih =>
    intro j
    rcases List.mem_cons.mp h with rfl | h2
    · exact ⟨j, List.mem_cons_self _ _⟩
    · rcases ih h2 (j + 1) with ⟨i, hi⟩
      exact ⟨i, List.mem_cons_of_mem _ hi⟩

theorem mem_enum_of_mem {α : Type} (l : List α) (a : α) (h : a ∈ l) :
    ∃ i, (i, a) ∈ l.enum :=
  mem_enumFrom_of_mem l a h 0

theorem methodEntryStep_error (result m : Val) (i : Nat) (msg : String)
    (h : flatten_voting_method m = Except.error msg) :
    ∀ acc, methodEntryStep result acc (i, m) = Except.error msg := by
  intro acc
  show (do
    let flat ← flatten_voting_method m
    let eid ← getItem result "election_id"
    pure (dinsert acc (eid, i) flat)) = Except.error msg
  rw [h, except_bind_error]

theorem methodRecordsStep_error_of_method (r : Val) (ms : List Val) (m : Val)
    (msg : String) (hvm : getItem r "voting_methods" = Except.ok (Val.vlist ms))
    (hm : m ∈ ms) (hflat : flatten_voting_method m = Except.error msg) :
    ∀ acc, ∃ msg2, methodRecordsStep acc r = Except.error msg2 := by
  intro acc
  have htruthy : (Val.vlist ms).truthy = true := by
    cases ms with
    | nil => cases hm
    | cons x xs => rfl
  rw [methodRecordsStep, hvm, except_bind_ok, if_pos htruthy, iterate_vlist,
    except_bind_ok]
  rcases mem_enum_of_mem ms m hm with ⟨i, hi⟩
  exact foldlM_error_of_mem (methodEntryStep r) ms.enum (i, m) hi
    (fun b => ⟨msg, methodEntryStep_error r m i msg hflat b⟩) acc

theorem tidy_voting_methods_error_of_method (results : List Val) (r m : Val)
    (ms : List Val) (msg : String) (hr : r ∈ results)
    (hvm : getItem r "voting_methods" = Except.ok (Val.vlist ms))
    (hm : m ∈ ms) (hflat : flatten_voting_method m = Except.error msg) :
    ∃ msg2, tidy_voting_methods results = Except.error msg2 := by
  rcases foldlM_error_of_mem methodRecordsStep results r hr
    (fun b => match ms with
      | [] => absurd hm (List.not_mem_nil m)
      | x :: xs => methodRecordsStep_error_of_method r (x :: xs) m msg hvm hm hflat b)
    [] with ⟨m2, hm2⟩
  exact ⟨m2, by rw [tidy_voting_methods_eq, methodRecords, hm2]; rfl⟩
/-- The elections table `process_elections` produces for
`[sampleA, sampleB]`. -/
def combinedAB : CombinedTable := [
  (Val.vstr "A",
    [("start", some (Val.vstr "s1")),
     ("election_name", some (Val.vstr "Alpha")),
     ("country", some (Val.vstr "US")),
     ("state", some (Val.vstr "VA")),
     ("verified", some (Val.vbool true)),
     ("verified_date", some (Val.vstr "2020"))]),
  (Val.vstr "B",
    [("start", some (Val.vstr "s2")),
     ("election_name", some (Val.vstr "Beta")),
     ("country", some (Val.vstr "US")),
     ("state", none),
     ("verified", some (Val.vbool false)),
     ("verified_date", some (Val.vnone))])]

/-- C7: `process_elections` combines the four per-election tables by outer
alignment on the election id: with distinct election ids (the spec's input
invariant, without which the alignment itself raises), every id present in
at least one of the four tables gets exactly one combined row, and that row
is `joinedRow`: every column of each of the four tables, holding the
table's value at that id and `none` (a missing value) where the table lacks
the id or the column — the row is never dropped. -/
theorem process_elections_outer_join (results : List Val)
    (combined : CombinedTable)
    (hok : process_elections results = Except.ok combined)
    (hnodup : (electionIds results).Nodup) :
    ∃ e n d v, tidy_elections results = Except.ok e ∧
      tidy_names results = Except.ok n ∧
      tidy_districts results = Except.ok d ∧
      tidy_verified results = Except.ok v ∧
      (combined.map Prod.fst).Nodup ∧
      (∀ id, id ∈ combined.map Prod.fst ↔
        (id ∈ tableIndex e ∨ id ∈ tableIndex n ∨ id ∈ tableIndex d ∨
          id ∈ tableIndex v)) ∧
      (∀ id row, (id, row) ∈ combined → row = joinedRow [e, n, d, v] id) := by
  rcases process_elections_aligned results combined hok hnodup with
    ⟨e, n, d, v, he, hn, hd, hv, hie, hin, hid, hiv, hcomb⟩
  have hkeys : combined.map Prod.fst = electionIds results := by
    rw [hcomb, List.map_map]
    show (electionIds results).map (fun x => x) = electionIds results
    exact List.map_id' (electionIds results)
  refine ⟨e, n, d, v, he, hn, hd, hv, ?_, ?_, ?_⟩
  · rw [hkeys]
    exact hnodup
  · intro id
    rw [hkeys, hie, hin, hid, hiv]
    tauto
  · intro id row hmem
    rw [hcomb] at hmem
    rcases List.mem_map.mp hmem with ⟨id0, _, heq⟩
    rcases Prod.mk.injEq .. ▸ heq with ⟨rfl, hrow⟩
    exact hrow.symm

/-- Witness for C7 at the concrete two-election input. -/
theorem process_elections_outer_join_witness :
    ∃ e n d v, tidy_elections [sampleA, sampleB] = Except.ok e ∧
      tidy_names [sampleA, sampleB] = Except.ok n ∧
      tidy_districts [sampleA, sampleB] = Except.ok d ∧
      tidy_verified [sampleA, sampleB] = Except.ok v ∧
      (combinedAB.map Prod.fst).Nodup ∧
      (∀ id, id ∈ combinedAB.map Prod.fst ↔
        (id ∈ tableIndex e ∨ id ∈ tableIndex n ∨ id ∈ tableIndex d ∨
          id ∈ tableIndex v)) ∧
      (∀ id row, (id, row) ∈ combinedAB → row = joinedRow [e, n, d, v] id) :=
  process_elections_outer_join [sampleA, sampleB] combinedAB rfl (by decide)
/-- C1 (counterexample): with a duplicated election id, `tidy_elections`
keeps one row per occurrence — the first row still holds the first
occurrence's values, so it is not last-write-wins — and `process_elections`
raises on the duplicated index instead of producing a one-row-per-id
table. -/
theorem duplicate_id_not_collapsed :
    tidy_elections [sampleA, sampleA2] = Except.ok
      [(Val.vstr "A", [("start", Val.vstr "s1")]),
       (Val.vstr "A", [("start", Val.vstr "s3")])] ∧
    dedupFirst (electionIds [sampleA, sampleA2]) = [Val.vstr "A"] ∧
    process_elections [sampleA, sampleA2] = Except.error
      "InvalidIndexError: cannot reindex on an axis with duplicate labels" :=
  ⟨rfl, rfl, rfl⟩

/-- C1 (amended): the dict-keyed extractors (`tidy_names`, `tidy_districts`,
`tidy_verified`, all instances of `recordLoop`) produce one entry per
distinct election id with the value of the last occurrence, but
`tidy_elections` keeps one row per occurrence; only when all election ids
are distinct does `process_elections` produce a table with exactly one row
per distinct election id. -/
theorem elections_rows_amended (results : List Val) :
    (∀ (value : Val → Except String Val) (records : List (Val × Val)),
      recordLoop value results = Except.ok records →
      (records.map Prod.fst).Nodup ∧
      ∀ id, lookupD records id =
        ((results.map (entryOf value)).reverse.find?
          (fun en => en.1 == id)).map Prod.snd) ∧
    (∀ rows, tidy_elections results = Except.ok rows →
      rows.length = results.length ∧ rows = results.map electionsRecordRow) ∧
    (∀ combined, process_elections results = Except.ok combined →
      (electionIds results).Nodup →
      combined.map Prod.fst = electionIds results ∧
      (combined.map Prod.fst).Nodup) := by
  refine ⟨?_, ?_, ?_⟩
  · intro value records h
    have hdict := recordLoop_ok_dictOf value results records h
    constructor
    · rw [hdict, keys_dictOf]
      exact dedupFirst_nodup _
    · intro id
      rw [hdict, lookupD_dictOf]
  · intro rows h
    rcases tidy_elections_ok_rows results rows h with ⟨hmap, _, _⟩
    exact ⟨by rw [hmap, List.length_map], hmap⟩
  · intro combined h hnodup
    rcases process_elections_aligned results combined h hnodup with
      ⟨e, n, d, v, _, _, _, _, _, _, _, _, hcomb⟩
    have hkeys : combined.map Prod.fst = electionIds results := by
      rw [hcomb, List.map_map]
      show (electionIds results).map (fun x => x) = electionIds results
      exact List.map_id' (electionIds results)
    exact ⟨hkeys, hkeys ▸ hnodup⟩

/-- Witness for C1 (amended): last-write-wins in the name extractor on a
duplicated id, one `tidy_elections` row per occurrence, and one combined row
per distinct id on a distinct-id input. -/
theorem elections_rows_amended_witness :
    lookupD [(Val.vstr "A", Val.vstr "Alpha2")] (Val.vstr "A") =
      ((([sampleA, sampleA2]).map (entryOf nameValue)).reverse.find?
        (fun en => en.1 == Val.vstr "A")).map Prod.snd ∧
    [(Val.vstr "A", [("start", Val.vstr "s1")]),
     (Val.vstr "A", [("start", Val.vstr "s3")])].length =
      [sampleA, sampleA2].length ∧
    combinedAB.map Prod.fst = electionIds [sampleA, sampleB] :=
  ⟨((elections_rows_amended [sampleA, sampleA2]).1 nameValue
      [(Val.vstr "A", Val.vstr "Alpha2")] rfl).2 (Val.vstr "A"),
   ((elections_rows_amended [sampleA, sampleA2]).2.1
      [(Val.vstr "A", [("start", Val.vstr "s1")]),
       (Val.vstr "A", [("start", Val.vstr "s3")])] rfl).1,
   ((elections_rows_amended [sampleA, sampleB]).2.2 combinedAB rfl (by decide)).1⟩
theorem methodEntry_fold_keys (r : Val) (ms : List Val) :
    ∀ (j : Nat) (acc final : List ((Val × Nat) × List (String × Val))),
      (∀ k ∈ acc.map Prod.fst, k.1 ≠ resultId r ∨ k.2 < j) →
      (ms.enumFrom j).foldlM (methodEntryStep r) acc = Except.ok final →
      final.map Prod.fst = acc.map Prod.fst ++
        (List.range' j ms.length).map (fun i => (resultId r, i)) := by
  induction ms with
  | nil =>
    intro j acc final _ h
    cases h
    simp
  | cons m rest ih =>
    intro j acc final hfresh hfold
    rw [show (m :: rest).enumFrom j = (j, m) :: rest.enumFrom (j + 1) from rfl,
      List.foldlM_cons] at hfold
    cases hstep : methodEntryStep r acc (j, m) with
    | error msg => rw [hstep, except_bind_error] at hfold; cases hfold
    | ok acc2 =>
      rw [hstep, except_bind_ok] at hfold
      rw [methodEntryStep] at hstep
      cases hflat : flatten_voting_method (j, m).2 with
      | error msg => rw [hflat, except_bind_error] at hstep; cases hstep
      | ok flat =>
        rw [hflat, except_bind_ok] at hstep
        cases hid : getItem r "election_id" with
        | error msg => rw [hid, except_bind_error] at hstep; cases hstep
        | ok id =>
          rw [hid, except_bind_ok, except_pure] at hstep
          have hidr : resultId r = id := by rw [resultId, hid]
          cases hstep
          have hnotmem : ((id, j) : Val × Nat) ∉ acc.map Prod.fst := by
            intro hmem
            rcases hfresh (id, j) hmem with h1 | h2
            · exact h1 hidr.symm
            · exact Nat.lt_irrefl j h2
          have hkeys2 : (dinsert acc (id, (j, m).1) flat).map Prod.fst =
              acc.map Prod.fst ++ [((id, j) : Val × Nat)] := by
            rw [keys_dinsert, if_neg hnotmem]
          have hfresh2 : ∀ k ∈ (dinsert acc (id, (j, m).1) flat).map Prod.fst,
              k.1 ≠ resultId r ∨ k.2 < j + 1 := by
            intro k hk
            rw [hkeys2] at hk
            rcases List.mem_append.mp hk with hk | hk
            · rcases hfresh k hk with h1 | h2
              · exact Or.inl h1
              · exact Or.inr (Nat.lt_succ_of_lt h2)
            · rcases List.mem_singleton.mp hk with rfl
              exact Or.inr (Nat.lt_succ_self j)
          have hrest := ih (j + 1) _ final hfresh2 hfold
          rw [hrest, hkeys2, List.append_assoc]
          simp only [hidr]
          congr 1

theorem electionIds_cons (r : Val) (rest : List Val) :
    electionIds (r :: rest) = resultId r :: electionIds rest := rfl

theorem methodRecords_fold_keys (results : List Val) :
    ∀ acc final : List ((Val × Nat) × List (String × Val)),
      (∀ r ∈ results, ∃ ms, getItem r "voting_methods" = Except.ok (Val.vlist ms)) →
      (electionIds results).Nodup →
      (∀ k ∈ acc.map Prod.fst, ∀ r ∈ results, k.1 ≠ resultId r) →
      results.foldlM methodRecordsStep acc = Except.ok final →
      final.map Prod.fst = acc.map Prod.fst ++ results.flatMap (fun r =>
        (List.range (votingMethodsList r).length).map (fun i => (resultId r, i))) := by
  induction results with
  | nil => intro acc final _ _ _ h; cases h; simp
  | cons r rest ih =>
    intro acc final hsh hnd hdisj hfold
    have hndtail : (electionIds rest).Nodup := by
      rw [electionIds_cons] at hnd
      exact (List.nodup_cons.mp hnd).2
    have hshtail : ∀ q ∈ rest, ∃ ms, getItem q "voting_methods" =
        Except.ok (Val.vlist ms) :=
      fun q hq => hsh q (List.mem_cons_of_mem r hq)
    rcases hsh r (List.mem_cons_self r rest) with ⟨ms, hvm⟩
    have hvml : votingMethodsList r = ms := by rw [votingMethodsList, hvm]
    rw [List.foldlM_cons] at hfold
    cases ms with
    | nil =>
      rw [methodRecordsStep_skip r (Val.vlist []) hvm rfl, except_bind_ok] at hfold
      have hrest := ih acc final hshtail hndtail
        (fun k hk q hq => hdisj k hk q (List.mem_cons_of_mem r hq)) hfold
      rw [hrest, List.flatMap_cons, hvml]
      rfl
    | cons m0 mrest =>
      cases hstep : methodRecordsStep acc r with
      | error msg => rw [hstep, except_bind_error] at hfold; cases hfold
      | ok acc2 =>
        rw [hstep, except_bind_ok] at hfold
        rw [methodRecordsStep, hvm, except_bind_ok,
          if_pos (show (Val.vlist (m0 :: mrest)).truthy = true from rfl),
          iterate_vlist, except_bind_ok] at hstep
        have hkeys2 := methodEntry_fold_keys r (m0 :: mrest) 0 acc acc2
          (fun k hk => Or.inl (hdisj k hk r (List.mem_cons_self r rest))) hstep
        have hfresh2 : ∀ k ∈ acc2.map Prod.fst, ∀ q ∈ rest, k.1 ≠ resultId q := by
          intro k hk q hq
          rw [hkeys2] at hk
          rcases List.mem_append.mp hk with hk | hk
          · exact hdisj k hk q (List.mem_cons_of_mem r hq)
          · rcases List.mem_map.mp hk with ⟨i, _, rfl⟩
            intro hEq
            have hmem : resultId r ∈ electionIds rest := by
              rw [show ((resultId r, i) : Val × Nat).1 = resultId r from rfl] at hEq
              rw [hEq, electionIds]
              exact List.mem_map.mpr ⟨q, hq, rfl⟩
            rw [electionIds_cons] at hnd
            exact (List.nodup_cons.mp hnd).1 hmem
        have hrest := ih acc2 final hshtail hndtail hfresh2 hfold
        rw [hrest, hkeys2, List.flatMap_cons, hvml, List.append_assoc]
        congr 2
        rw [List.range_eq_range']

/-- C2: with distinct election ids and list-shaped `voting_methods` fields
(the spec's data model), the voting-methods table has rows exactly for the
elections whose `voting_methods` list is non-empty, one row per list entry,
the row keys of each such election being `(id, i)` for `i` in the contiguous
range `0..k-1` where `k` is the length of its list. -/
theorem voting_methods_row_keys (results : List Val) (t : VTable)
    (hok : tidy_voting_methods results = Except.ok t)
    (hnodup : (electionIds results).Nodup)
    (hshape : ∀ r ∈ results, ∃ ms, getItem r "voting_methods" =
      Except.ok (Val.vlist ms)) :
    t.map Prod.fst = results.flatMap (fun r =>
      (List.range (votingMethodsList r).length).map (fun i => (resultId r, i))) := by
  rw [tidy_voting_methods] at hok
  cases hrec : methodRecords results with
  | error msg => rw [hrec, except_bind_error] at hok; cases hok
  | ok records =>
    rw [hrec, except_bind_ok] at hok
    by_cases hemp : records.isEmpty
    · rw [if_pos hemp] at hok; cases hok
    · rw [if_neg hemp, except_pure] at hok
      have ht : t = records.map (fun p =>
          (p.1, p.2.map (fun c => (methodColumn c.1, c.2)))) :=
        ((Except.ok.injEq _ _).mp hok).symm
      have hkeys := methodRecords_fold_keys results [] records hshape hnodup
        (by intro k hk; cases hk) (by rw [← methodRecords]; exact hrec)
      rw [ht, List.map_map]
      calc records.map (Prod.fst ∘ fun p => (p.1, p.2.map
              (fun c => (methodColumn c.1, c.2))))
          = records.map Prod.fst := List.map_congr_left (fun p _ => rfl)
        _ = _ := by rw [hkeys]; rfl

/-- Witness for C2: the concrete two-election input, where the one-method
election contributes the single key `(A, 0)` and the empty-list election
contributes nothing. -/
theorem voting_methods_row_keys_witness :
    [((Val.vstr "A", 0),
      [("method_excuse_required", Val.vbool false),
       ("method_instructions", Val.vstr "bring id")])].map Prod.fst =
      [sampleA, sampleB].flatMap (fun r =>
        (List.range (votingMethodsList r).length).map
          (fun i => (resultId r, i))) :=
  voting_methods_row_keys [sampleA, sampleB] _ rfl (by decide) (by
    intro r hr
    rcases List.mem_cons.mp hr with rfl | hr2
    · exact ⟨_, rfl⟩
    · rcases List.mem_cons.mp hr2 with rfl | hr3
      · exact ⟨_, rfl⟩
      · cases hr3)
/-- State-passing translation of the elections phase, used for the frame
property: the store holds the extracted result records.  Every statement in
the source of `process_elections` and the loops it calls only reads
`results` — the only subscript assignments write to the freshly created
local dicts `records` — so the faithful state-threading of the phase
returns the store it was given alongside the pure result. -/
def process_elections_state (store : List Val) :
    Except String (List Val × CombinedTable) := do
  let t ← process_elections store
  pure (store, t)

/-- State-passing translation of the voting-methods phase; as with the
elections phase, the source only reads the store (`flat_method` and
`records` are fresh local dicts), so the store is returned unchanged. -/
def process_voting_methods_state (store : List Val) :
    Except String (List Val × VTable) := do
  let t ← process_voting_methods store
  pure (store, t)

/-- The `__main__` pipeline with the result-record store threaded
explicitly through both processing phases. -/
def run_main_state (raw : Val) :
    Except String (List Val × CombinedTable × VTable) := do
  let results ← extract_results raw
  let s1 ← process_elections_state results
  let s2 ← process_voting_methods_state s1.1
  pure (s2.1, s1.2, s2.2)

/-- C10: no transform mutates its input: after threading the extracted
result records through both processing phases, the store that comes out is
the very record list `extract_results` produced; each phase's table equals
the pure transform applied directly to that unchanged list (in particular
`process_voting_methods`, run after the elections phase, still sees the
original records); and the threaded run agrees with `run_main`. -/
theorem pipeline_no_mutation (raw : Val) (results store : List Val)
    (elections : CombinedTable) (methods : VTable)
    (hext : extract_results raw = Except.ok results)
    (hrun : run_main_state raw = Except.ok (store, elections, methods)) :
    store = results ∧
    process_elections results = Except.ok elections ∧
    process_voting_methods store = Except.ok methods ∧
    process_voting_methods store = process_voting_methods results ∧
    run_main raw = Except.ok (elections, methods) := by
  rw [run_main_state, hext, except_bind_ok, process_elections_state] at hrun
  cases hpe : process_elections results with
  | error msg =>
    rw [hpe, except_bind_error, except_bind_error] at hrun
    cases hrun
  | ok e =>
    rw [hpe, except_bind_ok, except_pure, except_bind_ok] at hrun
    rw [show ((results, e) : List Val × CombinedTable).1 = results from rfl,
      process_voting_methods_state] at hrun
    cases hpv : process_voting_methods results with
    | error msg =>
      rw [hpv, except_bind_error, except_bind_error] at hrun
      cases hrun
    | ok m =>
      rw [hpv, except_bind_ok, except_pure, except_bind_ok, except_pure] at hrun
      simp only [Except.ok.injEq, Prod.mk.injEq] at hrun
      obtain ⟨h1, h2, h3⟩ := hrun
      refine ⟨h1.symm, ?_, ?_, ?_, ?_⟩
      · rw [h2]
      · rw [← h1, hpv, h3]
      · rw [← h1]
        exact hpv
      · rw [run_main, hext, except_bind_ok, hpe, except_bind_ok, hpv,
          except_bind_ok, except_pure, h2, h3]

/-- Witness for C10 at the concrete two-page input. -/
theorem pipeline_no_mutation_witness :
    [sampleA, sampleB] = [sampleA, sampleB] ∧
    process_elections [sampleA, sampleB] = Except.ok combinedAB ∧
    process_voting_methods [sampleA, sampleB] = Except.ok
      [((Val.vstr "A", 0),
        [("method_excuse_required", Val.vbool false),
         ("method_instructions", Val.vstr "bring id")])] ∧
    process_voting_methods [sampleA, sampleB] =
      process_voting_methods [sampleA, sampleB] ∧
    run_main (Val.vlist [pageOne, pageTwo]) = Except.ok (combinedAB,
      [((Val.vstr "A", 0),
        [("method_excuse_required", Val.vbool false),
         ("method_instructions", Val.vstr "bring id")])]) :=
  pipeline_no_mutation (Val.vlist [pageOne, pageTwo]) [sampleA, sampleB]
    [sampleA, sampleB] combinedAB
    [((Val.vstr "A", 0),
      [("method_excuse_required", Val.vbool false),
       ("method_instructions", Val.vstr "bring id")])] rfl rfl
/-- A result record whose localized name lacks the `en_US` key. -/
def sampleNoName : Val := Val.vdict [
  ("election_id", Val.vstr "N"),
  ("election_name", Val.vdict [("fr_FR", Val.vstr "Nom")]),
  ("district", Val.vdict [("country", Val.vstr "FR")]),
  ("third_party_verified", Val.vdict [("is_verified", Val.vbool false)]),
  ("voting_methods", Val.vlist [])]

/-- A result record missing the `district` sub-mapping. -/
def sampleNoDistrict : Val := Val.vdict [
  ("election_id", Val.vstr "D"),
  ("election_name", Val.vdict [("en_US", Val.vstr "Delta")]),
  ("third_party_verified", Val.vdict [("is_verified", Val.vbool false)]),
  ("voting_methods", Val.vlist [])]

/-- A result record missing the `third_party_verified` sub-mapping. -/
def sampleNoVerified : Val := Val.vdict [
  ("election_id", Val.vstr "V"),
  ("election_name", Val.vdict [("en_US", Val.vstr "Vega")]),
  ("district", Val.vdict [("country", Val.vstr "US")]),
  ("voting_methods", Val.vlist [])]

/-- A voting method missing the `instructions` key. -/
def badMethod : Val := Val.vdict [("excuse-required", Val.vbool true)]

/-- A result record whose voting method lacks the nested instructions path. -/
def sampleBadMethod : Val := Val.vdict [
  ("election_id", Val.vstr "M"),
  ("election_name", Val.vdict [("en_US", Val.vstr "Mu")]),
  ("district", Val.vdict [("country", Val.vstr "US")]),
  ("third_party_verified", Val.vdict [("is_verified", Val.vbool true)]),
  ("voting_methods", Val.vlist [badMethod])]

/-- C5: a result record missing the English-locale name path, the `district`
sub-mapping, or the `third_party_verified` sub-mapping, or containing a
voting method missing the `instructions → voting-id → en_US` path, makes the
corresponding transform raise an unhandled lookup failure which aborts the
processing run; and the `__main__` run is exactly extraction followed by
this processing, so the whole run aborts. -/
theorem missing_keys_abort (results : List Val) :
    ((∃ r ∈ results, ∃ msg, nameValue r = Except.error msg) →
      ∃ msg, run_processing results = Except.error msg) ∧
    ((∃ r ∈ results, ∃ msg, districtValue r = Except.error msg) →
      ∃ msg, run_processing results = Except.error msg) ∧
    ((∃ r ∈ results, ∃ msg, verifiedValue r = Except.error msg) →
      ∃ msg, run_processing results = Except.error msg) ∧
    ((∃ r ∈ results, ∃ ms, getItem r "voting_methods" = Except.ok (Val.vlist ms) ∧
        ∃ m ∈ ms, ∃ msg, flatten_voting_method m = Except.error msg) →
      ∃ msg, run_processing results = Except.error msg) ∧
    ∀ raw, run_main raw = extract_results raw >>= run_processing := by
  refine ⟨?_, ?_, ?_, ?_, ?_⟩
  · intro h
    exact run_processing_error results (Or.inl (process_elections_error results
      (Or.inr (Or.inl (tidy_names_error results h)))))
  · intro h
    exact run_processing_error results (Or.inl (process_elections_error results
      (Or.inr (Or.inr (Or.inl (tidy_districts_error results h))))))
  · intro h
    exact run_processing_error results (Or.inl (process_elections_error results
      (Or.inr (Or.inr (Or.inr (tidy_verified_error results h))))))
  · rintro ⟨r, hr, ms, hvm, m, hm, msg, hflat⟩
    refine run_processing_error results (Or.inr ?_)
    rcases tidy_voting_methods_error_of_method results r m ms msg hr hvm hm hflat
      with ⟨m2, hm2⟩
    exact ⟨m2, by rw [process_voting_methods]; exact hm2⟩
  · intro raw
    rfl

/-- Witness for C5: each missing-key scenario aborts the processing run at a
concrete input. -/
theorem missing_keys_abort_witness :
    (∃ msg, run_processing [sampleNoName] = Except.error msg) ∧
    (∃ msg, run_processing [sampleNoDistrict] = Except.error msg) ∧
    (∃ msg, run_processing [sampleNoVerified] = Except.error msg) ∧
    (∃ msg, run_processing [sampleBadMethod] = Except.error msg) ∧
    run_main (Val.vlist [pageOne]) =
      extract_results (Val.vlist [pageOne]) >>= run_processing := by
  refine ⟨?_, ?_, ?_, ?_, (missing_keys_abort []).2.2.2.2 (Val.vlist [pageOne])⟩
  · exact (missing_keys_abort [sampleNoName]).1
      ⟨sampleNoName, List.mem_singleton_self sampleNoName, "KeyError: en_US", rfl⟩
  · exact (missing_keys_abort [sampleNoDistrict]).2.1
      ⟨sampleNoDistrict, List.mem_singleton_self sampleNoDistrict,
        "KeyError: district", rfl⟩
  · exact (missing_keys_abort [sampleNoVerified]).2.2.1
      ⟨sampleNoVerified, List.mem_singleton_self sampleNoVerified,
        "KeyError: third_party_verified", rfl⟩
  · exact (missing_keys_abort [sampleBadMethod]).2.2.2.1
      ⟨sampleBadMethod, List.mem_singleton_self sampleBadMethod, [badMethod], rfl,
        badMethod, List.mem_singleton_self badMethod, "KeyError: instructions", rfl⟩
